import Mathlib

/-!
Verification of the family-tree core (graph normalizer and relationship
resolver) of `surplux/familyTtree`.

The JavaScript source keeps the whole graph as one object
`data = { people: { [id]: Person } }`; JavaScript objects preserve key
insertion order and have unique keys, and every entry is stored under the
key equal to its own `id` field.  We therefore embed the person table as a
`List Person` in insertion order, look entries up by their `id` field, and
carry `Nodup` hypotheses on the id column where a claim needs key
uniqueness.

The repository contains two near-identical revisions of `normalizeData`:
the one at `src/script.js:8-38` (embedded below as `normalizeDataV1`) and
the one at `src/script.js:482-512`, byte-identical to
`src/unnamed/part_000:31-65` (embedded as `normalizeData`).  The resolver
(`relationFromAToB` and its helpers, `src/script.js:258-405`) exists in the
first revision only.
-/

set_option maxRecDepth 4000

/-- A person record, `src/unnamed/part_000:1-2`: fields `id, name, year,
bio, gender, marriedCity, parents[], spouses[], children[], photo,
deceased`.  `gender` and `marriedCity` are `Option String` so that an
absent (JS `undefined`) value is distinguishable from the empty string;
`p.gender || ""` is embedded as `some (g.getD "")` since `""` is the only
falsy string. -/
structure Person where
  id : String
  name : String
  year : String
  bio : String
  gender : Option String
  marriedCity : Option String
  photo : String
  deceased : Bool
  parents : List String
  children : List String
  spouses : List String
  deriving DecidableEq, Repr

/-- The whole graph, `data = { people: ... }`.  `people` is `Option` so
that an input lacking the top-level collection (healed by
`normalizeData`, `src/script.js:483`) is representable. -/
structure FamilyData where
  people : Option (List Person)
  deriving DecidableEq, Repr

/-- `const dedupe = arr => Array.from(new Set(arr || []))`
(`src/script.js:2`): keep the first occurrence of each element. -/
def dedupe (l : List String) : List String :=
  l.foldl (fun acc x => if x ∈ acc then acc else acc ++ [x]) []

/-- `exists(id, d)` (`src/unnamed/part_000:14-16`): the id resolves to an
entry of the person table. -/
def existsId (ps : List Person) (id : String) : Bool :=
  ps.any (fun p => p.id = id)

/-- `data.people[id]`: look a person up by id (the JS object key equals
the `id` field). -/
def findPerson (ps : List Person) (id : String) : Option Person :=
  ps.find? (fun p => p.id = id)

/-- Mutation of the entry stored under a given id. -/
def updatePerson (ps : List Person) (id : String) (f : Person → Person) :
    List Person :=
  ps.map (fun p => if p.id = id then f p else p)

/-- The id column of the person table (the JS object keys, in order). -/
def idsOf (ps : List Person) : List String :=
  ps.map (fun p => p.id)

/-! ### `normalizeData`, `src/unnamed/part_000:31-65` = `src/script.js:482-512` -/

/-- Pass 1 (`part_000:34-38`): clear `children`, dedupe `parents` and
`spouses` and drop entries that do not resolve.  `exists` only consults
the key set, which this pass never changes, so it is checked against the
input table. -/
def nPass1 (ps : List Person) : List Person :=
  ps.map (fun p =>
    { p with
      children := [],
      parents := (dedupe p.parents).filter (fun id => existsId ps id),
      spouses := (dedupe p.spouses).filter (fun id => existsId ps id) })

/-- Pass 2 (`part_000:41-49`): for every person, append its id to each of
its (existing) parents' `children`.  `parents` fields are not modified by
this pass, and the key set is fixed, so iterating over the id list while
threading the table is faithful to the JS `forEach` over live objects. -/
def nPass2 (ps : List Person) : List Person :=
  (idsOf ps).foldl
    (fun acc cid =>
      match findPerson acc cid with
      | none => acc
      | some c =>
          c.parents.foldl
            (fun acc2 pid =>
              if existsId acc2 pid then
                updatePerson acc2 pid
                  (fun par => { par with children := par.children ++ [c.id] })
              else acc2)
            acc)
    ps

/-- Pass 3 (`part_000:52-54`): dedupe `children` and drop unresolvable
entries. -/
def nPass3 (ps : List Person) : List Person :=
  ps.map (fun p =>
    { p with children := (dedupe p.children).filter (fun id => existsId ps id) })

/-- Pass 4 (`part_000:57-64`): one-way spouse-symmetry propagation.  For
every person `p`, for every `sid` in its current spouse list, push `p.id`
onto the target's `spouses` unless already present. -/
def nPass4 (ps : List Person) : List Person :=
  (idsOf ps).foldl
    (fun acc pid =>
      match findPerson acc pid with
      | none => acc
      | some p =>
          p.spouses.foldl
            (fun acc2 sid =>
              if existsId acc2 sid then
                updatePerson acc2 sid
                  (fun sp =>
                    if p.id ∈ sp.spouses then sp
                    else { sp with spouses := sp.spouses ++ [p.id] })
              else acc2)
            acc)
    ps

/-- The normalization pipeline on the person table. -/
def normalizeCore (ps : List Person) : List Person :=
  nPass4 (nPass3 (nPass2 (nPass1 ps)))

/-- `normalizeData` (`src/unnamed/part_000:31-65`, `src/script.js:482-512`):
`if (!d.people) d.people = {}` then the four passes, mutating `d` in
place; embedded as returning the final state of `d`. -/
def normalizeData (d : FamilyData) : FamilyData :=
  let ps := d.people.getD []
  { people := some (normalizeCore ps) }

/-! ### `normalizeData`, first revision, `src/script.js:8-38`
(embedded as `normalizeDataV1`; it has no guard for a missing `people`
collection, so it is defined on the person table directly) -/

/-- Step 1 of `src/script.js:8-18`: clear every `children`, then for every
person append its id to each existing parent's `children`, deduplicating
on each append. -/
def v1Children (ps : List Person) : List Person :=
  (idsOf ps).foldl
    (fun acc cid =>
      match findPerson acc cid with
      | none => acc
      | some c =>
          c.parents.foldl
            (fun acc2 pid =>
              if existsId acc2 pid then
                updatePerson acc2 pid
                  (fun par => { par with children := dedupe (par.children ++ [c.id]) })
              else acc2)
            acc)
    (ps.map (fun p => { p with children := [] }))

/-- Step 2 of `src/script.js:19-28`: dedupe every spouse list, then the
one-way symmetry propagation `s.spouses = dedupe([...s.spouses, p.id])`. -/
def v1Spouses (ps : List Person) : List Person :=
  (idsOf ps).foldl
    (fun acc pid =>
      match findPerson acc pid with
      | none => acc
      | some p =>
          p.spouses.foldl
            (fun acc2 sid =>
              if existsId acc2 sid then
                updatePerson acc2 sid
                  (fun s => { s with spouses := dedupe (s.spouses ++ [p.id]) })
              else acc2)
            acc)
    (ps.map (fun p => { p with spouses := dedupe p.spouses }))

/-- Step 3 of `src/script.js:30-36` ("hygiene"): default `gender` and
`marriedCity` to the empty string, drop unresolvable ids and dedupe all
three relationship lists. -/
def v1Hygiene (ps : List Person) : List Person :=
  ps.map (fun p =>
    { p with
      gender := some (p.gender.getD ""),
      marriedCity := some (p.marriedCity.getD ""),
      parents := dedupe (p.parents.filter (fun id => existsId ps id)),
      children := dedupe (p.children.filter (fun id => existsId ps id)),
      spouses := dedupe (p.spouses.filter (fun id => existsId ps id)) })

/-- `normalizeData` of the first revision, `src/script.js:8-38`. -/
def normalizeDataV1 (ps : List Person) : List Person :=
  v1Hygiene (v1Spouses (v1Children ps))

/-! ### Relationship resolver, `src/script.js:258-405` (first revision) -/

/-- Tag of a `RelationshipResult`, the `type` field of the objects
returned by `relationFromAToB`. -/
inductive RelType where
  | self | spouse | ancestor | descendant | sibling | avuncular | cousin
  | related | unrelated
  deriving DecidableEq, Repr

/-- The result object `{type, label}` of `relationFromAToB`. -/
structure RelRes where
  type : RelType
  label : String
  deriving DecidableEq, Repr

/-- `data.people[id]?.parents || []` (`src/script.js:346`). -/
def parentsOfId (ps : List Person) (id : String) : List String :=
  ((findPerson ps id).map Person.parents).getD []

/-- Gendered label selection, e.g.
`A.gender==='male' ? x : A.gender==='female' ? y : z`. -/
def genderLabel (g : Option String) (male female neutral : String) : String :=
  if g = some "male" then male
  else if g = some "female" then female
  else neutral

/-- `'great-'.repeat(n)`-style string repetition. -/
def repeatStr (s : String) (n : Nat) : String :=
  String.join (List.replicate n s)

/-- `shareAParent` (`src/script.js:334-338`): the two parent sets
intersect.  The JS reads `data.people[a].parents` without optional
chaining; callers only pass ids whose records resolve, and the embedding
treats a missing record as an empty parent set. -/
def shareAParent (ps : List Person) (a b : String) : Bool :=
  (parentsOfId ps a).any (fun x => x ∈ parentsOfId ps b)

/-- One sweep over the frontier of `generationsUpTo`
(`src/script.js:343-349`): test each frontier id against `y` in order,
returning `none` when `y` is found, otherwise accumulate the unvisited
parents into `visited` and `next`. -/
def scanFrontier (ps : List Person) (y : String) :
    List String → List String → List String →
    Option (List String × List String)
  | [], visited, next => some (visited, next)
  | id :: rest, visited, next =>
    if id = y then none
    else
      let st := (parentsOfId ps id).foldl
        (fun (vn : List String × List String) p =>
          if p ∈ vn.1 then vn else (vn.1 ++ [p], vn.2 ++ [p]))
        (visited, next)
      scanFrontier ps y rest st.1 st.2

/-- The `while(frontier.length && gen<12)` loop of `generationsUpTo`
(`src/script.js:340-352`); the fuel argument is `12 - gen`. -/
def guAux (ps : List Person) (y : String) :
    Nat → List String → List String → Nat → Nat
  | _, [], _, _ => 0
  | 0, _ :: _, _, _ => 0
  | fuel + 1, id :: rest, visited, gen =>
    match scanFrontier ps y (id :: rest) visited [] with
    | none => gen
    | some (v, next) => guAux ps y fuel next v (gen + 1)

/-- `generationsUpTo(x,y)` (`src/script.js:340-352`): number of parent
edges walked upward from `x` until `y` is met (`0` when `y` is not met
within the depth cap of 12). -/
def generationsUpTo (ps : List Person) (x y : String) : Nat :=
  guAux ps y 12 [x] [x] 0

/-- The `while(frontier.length && gen<=limit)` loop of `ancestorMap`
(`src/script.js:374-383`); the state is `(seen, next, map)` and the fuel
is `limit + 1 - gen`. -/
def amAux (ps : List Person) :
    Nat → List String → List String → List (String × Nat) → Nat →
    List (String × Nat)
  | _, [], _, m, _ => m
  | 0, _ :: _, _, m, _ => m
  | fuel + 1, id :: rest, seen, m, gen =>
    let st := (id :: rest).foldl
      (fun (st : List String × List String × List (String × Nat)) i =>
        (parentsOfId ps i).foldl
          (fun st2 p =>
            if p ∈ st2.1 then st2
            else
              (st2.1 ++ [p], st2.2.1 ++ [p],
               if st2.2.2.any (fun e => e.1 = p) then st2.2.2
               else st2.2.2 ++ [(p, gen + 1)]))
          st)
      (seen, [], m)
    amAux ps fuel st.2.1 st.1 st.2.2 (gen + 1)

/-- `ancestorMap(x,limit)` (`src/script.js:370-385`): ancestors reachable
walking `parents` upward from `x`, each tagged with its generation
distance, in discovery order. -/
def ancestorMap (ps : List Person) (x : String) (limit : Nat) :
    List (String × Nat) :=
  amAux ps (limit + 1) [x] [x] [] 0

/-- `ancB.get(id)` on the insertion-ordered map. -/
def lookupGen (m : List (String × Nat)) (id : String) : Option Nat :=
  (m.find? (fun e => e.1 = id)).map (fun e => e.2)

/-- The `best` selection loop of `cousinLabel` (`src/script.js:356-362`):
first common ancestor, in `ancA` order, strictly minimizing
`genA + genB`. -/
def cousinBest (ancA ancB : List (String × Nat)) :
    Option (String × Nat × Nat) :=
  ancA.foldl
    (fun best e =>
      match lookupGen ancB e.1 with
      | none => best
      | some genB =>
          match best with
          | none => some (e.1, e.2, genB)
          | some b =>
              if e.2 + genB < b.2.1 + b.2.2 then some (e.1, e.2, genB)
              else some b)
    none

/-- `['','first',...,'eighth'][k] || `${k}th`` (`src/script.js:367`). -/
def ordinalWord (k : Nat) : String :=
  let arr := ["", "first", "second", "third", "fourth", "fifth", "sixth",
              "seventh", "eighth"]
  match arr.get? k with
  | some s => if s = "" then toString k ++ "th" else s
  | none => toString k ++ "th"

/-- `cousinLabel(a,b)` (`src/script.js:353-369`). -/
def cousinLabel (ps : List Person) (a b : String) : Option String :=
  let ancA := ancestorMap ps a 8
  let ancB := ancestorMap ps b 8
  match cousinBest ancA ancB with
  | none => none
  | some best =>
      let k := min best.2.1 best.2.2 - 1
      let r := max best.2.1 best.2.2 - min best.2.1 best.2.2
      if k < 1 then none
      else if r = 0 then some (ordinalWord k ++ " cousin")
      else some (ordinalWord k ++ " cousin " ++ toString r ++ "× removed")

/-- Path reconstruction of `findPath` (`src/script.js:397-399`):
`while(t!==a){ t=prev[t]; path.push(t); }`.  The `prev` chain built by the
search always leads back to `a`, so the fuel `prev.length + 1` is never
exhausted. -/
def rebuildPath (prev : List (String × String)) (a : String) :
    Nat → String → List String → List String
  | 0, _, path => path
  | fuel + 1, t, path =>
      if t = a then path
      else
        match (prev.find? (fun e => e.1 = t)).map (fun e => e.2) with
        | none => path
        | some t2 => rebuildPath prev a fuel t2 (path ++ [t2])

/-- The `while(queue.length)` loop of `findPath` (`src/script.js:389-403`)
with explicit fuel.  `none` marks fuel exhaustion (which, as proved below,
cannot happen with fuel `ps.length + 1`); `some r` is the loop's own
result `r`. -/
def findPathAux (ps : List Person) (a b : String) :
    Nat → List String → List (String × String) → List String →
    Option (Option (List String))
  | 0, queue, _, _ => if queue.isEmpty then some none else none
  | _ + 1, [], _, _ => some none
  | fuel + 1, cur :: queue, prev, seen =>
      let neighbors :=
        match findPerson ps cur with
        | some p => p.parents ++ p.spouses ++ p.children
        | none => []
      match neighbors.foldl
        (fun st n =>
          match st with
          | Sum.inl path => Sum.inl path
          | Sum.inr (q, pr, sn) =>
              if ¬ existsId ps n ∨ n ∈ sn then Sum.inr (q, pr, sn)
              else
                let pr2 := pr ++ [(n, cur)]
                let sn2 := sn ++ [n]
                if n = b then
                  Sum.inl ((rebuildPath pr2 a (pr2.length + 1) b [b]).reverse)
                else Sum.inr (q ++ [n], pr2, sn2))
        (Sum.inr (queue, prev, seen)) with
      | Sum.inl path => some (some path)
      | Sum.inr (q, pr, sn) => findPathAux ps a b fuel q pr sn

/-- `findPath(a,b)` (`src/script.js:386-405`): breadth-first search over
`parents ++ spouses ++ children` edges, skipping unresolvable ids. -/
def findPath (ps : List Person) (a b : String) : Option (List String) :=
  if a = b then some [a]
  else
    match findPathAux ps a b (ps.length + 1) [a] [] [a] with
    | some r => r
    | none => none

/-- `relationFromAToB(aId,bId)` (`src/script.js:258-331`): the rule
cascade computing the role of `A` relative to `B`.  The UI
(`src/script.js:248`) only calls it with ids that resolve; for
unresolvable ids the embedding returns `unrelated` where the JS would
fault on an undefined record. -/
def relationFromAToB (ps : List Person) (aId bId : String) : RelRes :=
  if aId = bId then { type := RelType.self, label := "the same person" }
  else
    match findPerson ps aId, findPerson ps bId with
    | some A, some B =>
      if bId ∈ A.spouses then
        { type := RelType.spouse,
          label := genderLabel A.gender "husband" "wife" "spouse" }
      else if aId ∈ B.parents then
        { type := RelType.ancestor,
          label := genderLabel A.gender "father" "mother" "parent" }
      else if bId ∈ A.parents then
        { type := RelType.descendant,
          label := genderLabel A.gender "son" "daughter" "child" }
      else
        let upA := generationsUpTo ps aId bId
        if upA > 1 then
          if upA = 2 then
            { type := RelType.ancestor,
              label := genderLabel A.gender "grandfather" "grandmother" "grandparent" }
          else
            { type := RelType.ancestor,
              label := repeatStr "great-" (upA - 2) ++
                genderLabel A.gender "grandfather" "grandmother" "grandparent" }
        else
          let upB := generationsUpTo ps bId aId
          if upB > 1 then
            if upB = 2 then
              { type := RelType.descendant,
                label := genderLabel A.gender "grandson" "granddaughter" "grandchild" }
            else
              { type := RelType.descendant,
                label := repeatStr "great-" (upB - 2) ++
                  genderLabel A.gender "grandson" "granddaughter" "grandchild" }
          else if shareAParent ps aId bId then
            { type := RelType.sibling,
              label := genderLabel A.gender "brother" "sister" "sibling" }
          else if B.parents.any (fun p => shareAParent ps aId p) then
            { type := RelType.avuncular,
              label := genderLabel A.gender "uncle" "aunt" "aunt/uncle" }
          else if A.parents.any (fun p => shareAParent ps bId p) then
            { type := RelType.avuncular,
              label := genderLabel A.gender "nephew" "niece" "niece/nephew" }
          else
            match cousinLabel ps aId bId with
            | some lbl => { type := RelType.cousin, label := lbl }
            | none =>
                match findPath ps aId bId with
                | some _ => { type := RelType.related, label := "related" }
                | none => { type := RelType.unrelated, label := "unrelated" }
    | _, _ => { type := RelType.unrelated, label := "unrelated" }

/-- Shorthand for building concrete person records in scenarios. -/
def mkP (id : String) (gender : Option String)
    (parents spouses children : List String) : Person :=
  { id := id, name := id, year := "", bio := "", gender := gender,
    marriedCity := none, photo := "", deceased := false,
    parents := parents, children := children, spouses := spouses }

/-! ### Specification-side notions used to state the claims -/

/-- Neighbor list used by the fallback search (`src/script.js:392`):
`[...parents, ...spouses, ...children]`. -/
def neighborsOfId (ps : List Person) (id : String) : List String :=
  match findPerson ps id with
  | some p => p.parents ++ p.spouses ++ p.children
  | none => []

/-- `data.people[id]?.spouses || []`-style access, mirroring
`parentsOfId`. -/
def spousesOfId (ps : List Person) (id : String) : List String :=
  ((findPerson ps id).map Person.spouses).getD []

/-- One undirected-graph edge between existing people, over the
parents/spouses/children lists. -/
def edgeStep (ps : List Person) (u v : String) : Prop :=
  existsId ps u = true ∧ existsId ps v = true ∧ v ∈ neighborsOfId ps u

/-- Connectivity over the neighbor relation: the spec-side notion of "a
path exists between `a` and `b`". -/
def Reachable (ps : List Person) (u v : String) : Prop :=
  Relation.ReflTransGen (edgeStep ps) u v

/-- A well-formed normalized person table: unique ids, no dangling
references, `children` the exact inverse of `parents`, and symmetric
`spouses` (the invariants I1-I3 of the spec). -/
def GoodGraph (ps : List Person) : Prop :=
  (idsOf ps).Nodup ∧
  (∀ p ∈ ps,
    (∀ x ∈ p.parents, existsId ps x = true) ∧
    (∀ x ∈ p.children, existsId ps x = true) ∧
    (∀ x ∈ p.spouses, existsId ps x = true)) ∧
  (∀ p ∈ ps, ∀ q ∈ ps,
    (p.id ∈ q.parents ↔ q.id ∈ p.children) ∧
    (p.id ∈ q.spouses ↔ q.id ∈ p.spouses))

/-- Every id referenced by a relationship set of `ps` resolves in the
table `base` (the spec's invariant I1, stated against a reference
table). -/
def RefsBound (base ps : List Person) : Prop :=
  ∀ p ∈ ps,
    (∀ x ∈ p.parents, existsId base x = true) ∧
    (∀ x ∈ p.children, existsId base x = true) ∧
    (∀ x ∈ p.spouses, existsId base x = true)

/-- The common-ancestor candidates inspected by `cousinLabel`
(`src/script.js:357-362`), each as `(id, genA, genB)`. -/
def commonAncestors (ancA ancB : List (String × Nat)) :
    List (String × Nat × Nat) :=
  ancA.filterMap (fun e => (lookupGen ancB e.1).map (fun gB => (e.1, e.2, gB)))

/-- The cousin label text `src/script.js:367-368` builds from a degree and
a removal count. -/
def cousinPhrase (k r : Nat) : String :=
  if r = 0 then ordinalWord k ++ " cousin"
  else ordinalWord k ++ " cousin " ++ toString r ++ "× removed"

/-- The list of child appends `nPass2` performs on a person `q` while
processing the ids `P` over the (pass-1) table `ps`. -/
def childAppends (ps : List Person) (P : List String) (q : Person) :
    List String :=
  P.filter (fun cid => decide (q.id ∈ parentsOfId ps cid))

/-- The list of spouse appends `nPass4` performs on a person `q` while
processing the ids `P` over the (pass-3) table `ps`. -/
def spouseAppends (ps : List Person) (P : List String) (q : Person) :
    List String :=
  P.filter (fun rid => decide (q.id ∈ spousesOfId ps rid ∧ rid ∉ q.spouses))

/-- Closed form of `normalizeCore` on a table with duplicate-free ids
(proved below as `normalizeCore_eq`): parents and spouses deduplicated
and filtered, children the inverse of the (pass-1) parents in table
order, spouses extended by the one-way symmetry propagation. -/
def normalForm (ps : List Person) (q : Person) : Person :=
  let s1 := nPass1 ps
  let p1 := (dedupe q.parents).filter (fun id => existsId ps id)
  let sp1 := (dedupe q.spouses).filter (fun id => existsId ps id)
  { q with
    parents := p1,
    children := (idsOf ps).filter (fun cid => decide (q.id ∈ parentsOfId s1 cid)),
    spouses := sp1 ++ (idsOf ps).filter
      (fun rid => decide (q.id ∈ spousesOfId s1 rid ∧ rid ∉ sp1)) }

/-! ### Concrete scenario graphs -/

/-- Scenario 1 of the spec: `a` father of `b`, `b` father of `c`, all
male, no spouses (normalized form). -/
def scenario1Graph : List Person :=
  [mkP "a" (some "male") [] [] ["b"],
   mkP "b" (some "male") ["a"] [] ["c"],
   mkP "c" (some "male") ["b"] [] []]

/-- Scenario 4 of the spec: `p` is `a`'s parent's parent and `b`'s parent,
so `b` is a sibling of `a`'s parent `m`; all male. -/
def scenario4Graph : List Person :=
  [mkP "p" (some "male") [] [] ["m", "b"],
   mkP "m" (some "male") ["p"] [] ["a"],
   mkP "b" (some "male") ["p"] [] [],
   mkP "a" (some "male") ["m"] [] []]

/-- Scenario 3 of the spec: `a`'s parent `p1` and `b`'s parent `p2` are
siblings sharing the grandparent `g`. -/
def scenario3Graph : List Person :=
  [mkP "g" none [] [] ["p1", "p2"],
   mkP "p1" none ["g"] [] ["a"],
   mkP "p2" none ["g"] [] ["b"],
   mkP "a" none ["p1"] [] [],
   mkP "b" none ["p2"] [] []]

/-- Two nine-generation parent chains meeting at the root `r`: the only
common ancestor of `a0` and `b0` sits nine generations up on both
sides. -/
def deepCousinGraph : List Person :=
  [mkP "r" none [] [] ["a8", "b8"],
   mkP "a8" none ["r"] [] ["a7"], mkP "a7" none ["a8"] [] ["a6"],
   mkP "a6" none ["a7"] [] ["a5"], mkP "a5" none ["a6"] [] ["a4"],
   mkP "a4" none ["a5"] [] ["a3"], mkP "a3" none ["a4"] [] ["a2"],
   mkP "a2" none ["a3"] [] ["a1"], mkP "a1" none ["a2"] [] ["a0"],
   mkP "a0" none ["a1"] [] [],
   mkP "b8" none ["r"] [] ["b7"], mkP "b7" none ["b8"] [] ["b6"],
   mkP "b6" none ["b7"] [] ["b5"], mkP "b5" none ["b6"] [] ["b4"],
   mkP "b4" none ["b5"] [] ["b3"], mkP "b3" none ["b4"] [] ["b2"],
   mkP "b2" none ["b3"] [] ["b1"], mkP "b1" none ["b2"] [] ["b0"],
   mkP "b0" none ["b1"] [] []]

/-- Two people with no relationship sets at all: entirely disconnected. -/
def disconnectedGraph : List Person :=
  [mkP "a" none [] [] [], mkP "b" none [] [] []]

/-- `a` is the spouse of `c` and `c` is a parent of `b`: `a` and `b` are
connected but no specific rule relates them. -/
def pathOnlyGraph : List Person :=
  [mkP "a" none [] ["c"] [],
   mkP "c" none [] ["a"] ["b"],
   mkP "b" none ["c"] [] []]

/-- A raw (un-normalized) table: a one-way spouse edge `x → y`, a parent
edge `z → x` with no derived children, for exercising `normalizeData`. -/
def rawGraph : List Person :=
  [mkP "x" none [] ["y"] [],
   mkP "y" none [] [] [],
   mkP "z" none ["x"] [] []]

/-! ### Basic lemmas about the table primitives -/

theorem mem_dedupe_go (l : List String) :
    ∀ (acc : List String) (x : String),
      x ∈ l.foldl (fun acc x => if x ∈ acc then acc else acc ++ [x]) acc ↔
        x ∈ acc ∨ x ∈ l := by
  induction l with
  | nil => simp
  | cons a l ih =>
      intro acc x
      by_cases h : a ∈ acc
      · simp only [List.foldl_cons, if_pos h, ih, List.mem_cons]
        constructor
        · rintro (hx | hx)
          · exact Or.inl hx
          · exact Or.inr (Or.inr hx)
        · rintro (hx | hx | hx)
          · exact Or.inl hx
          · exact Or.inl (hx ▸ h)
          · exact Or.inr hx
      · simp only [List.foldl_cons, if_neg h, ih, List.mem_append,
          List.mem_singleton, List.mem_cons]
        tauto

theorem mem_dedupe (l : List String) (x : String) :
    x ∈ dedupe l ↔ x ∈ l := by
  unfold dedupe
  rw [mem_dedupe_go]
  simp

theorem nodup_dedupe_go (l : List String) :
    ∀ acc : List String, acc.Nodup →
      (l.foldl (fun acc x => if x ∈ acc then acc else acc ++ [x]) acc).Nodup := by
  induction l with
  | nil => intro acc h; simpa using h
  | cons a l ih =>
      intro acc h
      by_cases ha : a ∈ acc
      · simpa [ha] using ih acc h
      · have hacc : (acc ++ [a]).Nodup := by
          rw [List.nodup_append]
          refine ⟨h, List.nodup_singleton a, ?_⟩
          intro x hx hx2
          rw [List.mem_singleton] at hx2
          subst hx2
          exact ha hx
        simp only [List.foldl_cons, if_neg ha]
        exact ih (acc ++ [a]) hacc

theorem nodup_dedupe (l : List String) : (dedupe l).Nodup := by
  unfold dedupe
  exact nodup_dedupe_go l [] List.nodup_nil

theorem dedupe_go_eq (l : List String) :
    ∀ acc : List String, l.Nodup → (∀ x ∈ l, x ∉ acc) →
      l.foldl (fun acc x => if x ∈ acc then acc else acc ++ [x]) acc = acc ++ l := by
  induction l with
  | nil => intro acc _ _; simp
  | cons a l ih =>
      intro acc hnd hdisj
      have ha : a ∉ acc := hdisj a (List.mem_cons_self a l)
      simp only [List.foldl_cons, if_neg ha]
      rw [ih (acc ++ [a]) (List.nodup_cons.mp hnd).2]
      · simp
      · intro x hx
        simp only [List.mem_append, List.mem_singleton]
        rintro (h | rfl)
        · exact hdisj x (List.mem_cons_of_mem a hx) h
        · exact (List.nodup_cons.mp hnd).1 hx

theorem dedupe_eq_self (l : List String) (h : l.Nodup) : dedupe l = l := by
  unfold dedupe
  simpa using dedupe_go_eq l [] h (by simp)

theorem existsId_iff (ps : List Person) (x : String) :
    existsId ps x = true ↔ x ∈ idsOf ps := by
  simp only [existsId, List.any_eq_true, idsOf, List.mem_map]
  constructor
  · rintro ⟨p, hp, h⟩
    exact ⟨p, hp, by simpa using h⟩
  · rintro ⟨p, hp, h⟩
    exact ⟨p, hp, by simpa using h⟩

theorem findPerson_map (ps : List Person) (g : Person → Person)
    (hg : ∀ p, (g p).id = p.id) (j : String) :
    findPerson (ps.map g) j = (findPerson ps j).map g := by
  unfold findPerson
  have hfn : ((fun p : Person => decide (p.id = j)) ∘ g)
      = (fun p : Person => decide (p.id = j)) := by
    funext p
    simp [Function.comp, hg]
  rw [List.find?_map, hfn]

theorem idsOf_map (ps : List Person) (g : Person → Person)
    (hg : ∀ p, (g p).id = p.id) : idsOf (ps.map g) = idsOf ps := by
  simp only [idsOf, List.map_map]
  exact List.map_congr_left (fun p _ => hg p)

theorem existsId_map (ps : List Person) (g : Person → Person)
    (hg : ∀ p, (g p).id = p.id) (x : String) :
    existsId (ps.map g) x = existsId ps x := by
  by_cases h : existsId ps x = true
  · rw [h]
    rw [existsId_iff] at h ⊢
    rwa [idsOf_map ps g hg]
  · have h' : ¬ existsId (ps.map g) x = true := by
      rw [existsId_iff] at h ⊢
      rwa [idsOf_map ps g hg]
    rw [Bool.not_eq_true] at h h'
    rw [h, h']

theorem findPerson_eq_some_of_mem (ps : List Person) (q : Person)
    (hnd : (idsOf ps).Nodup) (hq : q ∈ ps) :
    findPerson ps q.id = some q := by
  induction ps with
  | nil => cases hq
  | cons p ps ih =>
      rcases List.mem_cons.mp hq with rfl | hq'
      · simp [findPerson]
      · have hne : p.id ≠ q.id := by
          intro h
          have : q.id ∈ idsOf ps := List.mem_map.mpr ⟨q, hq', rfl⟩
          rw [idsOf, List.map_cons, List.nodup_cons] at hnd
          exact hnd.1 (h ▸ this)
        have := ih (by rw [idsOf, List.map_cons, List.nodup_cons] at hnd; exact hnd.2) hq'
        simpa [findPerson, hne] using this

theorem findPerson_mem (ps : List Person) (j : String) (p : Person)
    (h : findPerson ps j = some p) : p ∈ ps ∧ p.id = j := by
  refine ⟨List.mem_of_find?_eq_some h, ?_⟩
  have := List.find?_some h
  simpa using this

theorem findPerson_of_mem_ids (ps : List Person) (j : String)
    (h : j ∈ idsOf ps) : ∃ p ∈ ps, findPerson ps j = some p ∧ p.id = j := by
  have : ∃ p, findPerson ps j = some p := by
    rw [← Option.isSome_iff_exists]
    rw [findPerson, List.find?_isSome]
    rcases List.mem_map.mp h with ⟨p, hp, rfl⟩
    exact ⟨p, hp, by simp⟩
  rcases this with ⟨p, hp⟩
  rcases findPerson_mem ps j p hp with ⟨h1, h2⟩
  exact ⟨p, h1, hp, h2⟩

/-- A fold whose every step preserves a projection of the table preserves
it globally. -/
theorem foldl_preserves_map {β γ : Type} (g : Person → γ)
    (step : List Person → β → List Person)
    (h : ∀ acc x, (step acc x).map g = acc.map g) :
    ∀ (L : List β) (acc : List Person),
      (L.foldl step acc).map g = acc.map g := by
  intro L
  induction L with
  | nil => intro acc; rfl
  | cons x L ih => intro acc; rw [List.foldl_cons, ih, h]

/-- A conditional-update fold over a duplicate-free id list is a single
`map` applying the update to exactly the listed persons. -/
theorem foldl_update_eq_map (f : Person → Person)
    (hf : ∀ p, (f p).id = p.id) :
    ∀ (sl : List String), sl.Nodup → ∀ (ps : List Person),
      sl.foldl
        (fun acc sid =>
          if existsId acc sid then updatePerson acc sid f else acc) ps
      = ps.map (fun q => if q.id ∈ sl then f q else q) := by
  intro sl
  induction sl with
  | nil =>
      intro _ ps
      simp
  | cons sid rest ih =>
      intro hnd ps
      have hstep :
          (if existsId ps sid then updatePerson ps sid f else ps)
            = ps.map (fun q => if q.id = sid then f q else q) := by
        by_cases h : existsId ps sid = true
        · simp [h, updatePerson]
        · rw [Bool.not_eq_true] at h
          rw [h]
          simp only [Bool.false_eq_true, if_false]
          have hpt : ∀ q ∈ ps, (if q.id = sid then f q else q) = id q := by
            intro q hq
            have : ¬ q.id = sid := by
              intro hc
              have : existsId ps sid = true := by
                rw [existsId_iff]
                exact List.mem_map.mpr ⟨q, hq, hc⟩
              rw [h] at this
              cases this
            simp [this]
          rw [List.map_congr_left hpt, List.map_id]
      rw [List.foldl_cons, hstep,
        ih (List.nodup_cons.mp hnd).2 (ps.map (fun q => if q.id = sid then f q else q)),
        List.map_map]
      apply List.map_congr_left
      intro q _
      by_cases h1 : q.id = sid
      · have h2 : (f q).id ∈ rest → False := by
          intro hc
          rw [hf q, h1] at hc
          exact (List.nodup_cons.mp hnd).1 hc
        simp only [Function.comp, if_pos h1]
        rw [if_neg h2, if_pos (by simp [h1])]
      · simp only [Function.comp, if_neg h1]
        by_cases h2 : q.id ∈ rest
        · rw [if_pos h2, if_pos (List.mem_cons_of_mem _ h2)]
        · rw [if_neg h2, if_neg (by simp [h1, h2])]

/-! ### Closed form of the normalization passes -/
theorem childAppends_append (ps : List Person) (P Q : List String) (q : Person) :
    childAppends ps (P ++ Q) q = childAppends ps P q ++ childAppends ps Q q := by
  unfold childAppends
  exact List.filter_append _ _

theorem spouseAppends_append (ps : List Person) (P Q : List String) (q : Person) :
    spouseAppends ps (P ++ Q) q = spouseAppends ps P q ++ spouseAppends ps Q q := by
  unfold spouseAppends
  exact List.filter_append _ _

theorem nPass2_go (ps : List Person) (hnd : (idsOf ps).Nodup)
    (hpnd : ∀ p ∈ ps, p.parents.Nodup) :
    ∀ (L P : List String), idsOf ps = P ++ L →
      L.foldl
        (fun acc cid =>
          match findPerson acc cid with
          | none => acc
          | some c =>
              c.parents.foldl
                (fun acc2 pid =>
                  if existsId acc2 pid then
                    updatePerson acc2 pid
                      (fun par => { par with children := par.children ++ [c.id] })
                  else acc2)
                acc)
        (ps.map (fun q => { q with children := q.children ++ childAppends ps P q }))
      = ps.map (fun q =>
          { q with children := q.children ++ childAppends ps (P ++ L) q }) := by
  intro L
  induction L with
  | nil =>
      intro P _
      simp
  | cons cid L ih =>
      intro P hPL
      have hcid : cid ∈ idsOf ps := by
        rw [hPL]
        exact List.mem_append_right P (List.mem_cons_self cid L)
      rcases findPerson_of_mem_ids ps cid hcid with ⟨c₀, hc₀mem, hc₀find, hc₀id⟩
      set F : List String → Person → Person :=
        fun P q => { q with children := q.children ++ childAppends ps P q } with hF
      have hFid : ∀ P q, (F P q).id = q.id := fun _ _ => rfl
      have hfind : findPerson (ps.map (F P)) cid = some (F P c₀) := by
        rw [findPerson_map ps (F P) (hFid P), hc₀find]
        rfl
      rw [List.foldl_cons]
      have hstep :
          (match findPerson (ps.map (F P)) cid with
            | none => ps.map (F P)
            | some c =>
                c.parents.foldl
                  (fun acc2 pid =>
                    if existsId acc2 pid then
                      updatePerson acc2 pid
                        (fun par => { par with children := par.children ++ [c.id] })
                    else acc2)
                  (ps.map (F P)))
          = ps.map (F (P ++ [cid])) := by
        have key :
            (F P c₀).parents.foldl
              (fun acc2 pid =>
                if existsId acc2 pid then
                  updatePerson acc2 pid
                    (fun par => { par with children := par.children ++ [(F P c₀).id] })
                else acc2)
              (ps.map (F P))
            = ps.map (F (P ++ [cid])) := by
          rw [foldl_update_eq_map
            (fun par => { par with children := par.children ++ [(F P c₀).id] })
            (fun _ => rfl) (F P c₀).parents
            (by show c₀.parents.Nodup; exact hpnd c₀ hc₀mem)
            (ps.map (F P)), List.map_map]
          apply List.map_congr_left
          intro q _
          have hpofid : parentsOfId ps cid = c₀.parents := by
            unfold parentsOfId
            rw [hc₀find]
            rfl
          have happ : childAppends ps (P ++ [cid]) q
              = childAppends ps P q ++ (if q.id ∈ c₀.parents then [cid] else []) := by
            rw [childAppends_append]
            congr 1
            unfold childAppends
            rw [List.filter_cons]
            by_cases h : q.id ∈ c₀.parents
            · rw [if_pos (by rw [hpofid]; exact decide_eq_true h)]
              simp [h]
            · rw [if_neg (by rw [hpofid]; simpa using h)]
              simp [h]
          show (if (F P q).id ∈ (F P c₀).parents then
                  { F P q with children := (F P q).children ++ [(F P c₀).id] }
                else F P q) = F (P ++ [cid]) q
          by_cases h : q.id ∈ c₀.parents
          · rw [if_pos (show (F P q).id ∈ (F P c₀).parents from h)]
            show ({ q with children := (q.children ++ childAppends ps P q) ++ [c₀.id] } : Person)
                = { q with children := q.children ++ childAppends ps (P ++ [cid]) q }
            rw [happ, if_pos h, hc₀id, List.append_assoc]
          · rw [if_neg (show ¬ (F P q).id ∈ (F P c₀).parents from h)]
            show ({ q with children := q.children ++ childAppends ps P q } : Person)
                = { q with children := q.children ++ childAppends ps (P ++ [cid]) q }
            rw [happ, if_neg h, List.append_nil]
        rw [hfind]
        exact key
      rw [hstep, ih (P ++ [cid]) (by rw [hPL]; simp)]
      rw [List.append_assoc]
      rfl

theorem nPass2_eq (ps : List Person) (hnd : (idsOf ps).Nodup)
    (hch : ∀ p ∈ ps, p.children = [])
    (hpnd : ∀ p ∈ ps, p.parents.Nodup) :
    nPass2 ps = ps.map (fun q => { q with children := childAppends ps (idsOf ps) q }) := by
  have h0 : ps.map (fun q => { q with children := q.children ++ childAppends ps [] q }) = ps := by
    have hpt : ∀ q ∈ ps, ({ q with children := q.children ++ childAppends ps [] q } : Person) = id q := by
      intro q _
      simp [childAppends]
    rw [List.map_congr_left hpt, List.map_id]
  have hgo := nPass2_go ps hnd hpnd (idsOf ps) [] (by simp)
  rw [h0] at hgo
  unfold nPass2
  rw [hgo]
  apply List.map_congr_left
  intro q hq
  rw [hch q hq]
  simp

theorem nPass4_go (ps : List Person) (hnd : (idsOf ps).Nodup)
    (hsnd : ∀ p ∈ ps, p.spouses.Nodup) :
    ∀ (L P : List String), idsOf ps = P ++ L →
      L.foldl
        (fun acc pid =>
          match findPerson acc pid with
          | none => acc
          | some p =>
              p.spouses.foldl
                (fun acc2 sid =>
                  if existsId acc2 sid then
                    updatePerson acc2 sid
                      (fun sp =>
                        if p.id ∈ sp.spouses then sp
                        else { sp with spouses := sp.spouses ++ [p.id] })
                  else acc2)
                acc)
        (ps.map (fun q => { q with spouses := q.spouses ++ spouseAppends ps P q }))
      = ps.map (fun q =>
          { q with spouses := q.spouses ++ spouseAppends ps (P ++ L) q }) := by
  intro L
  induction L with
  | nil =>
      intro P _
      simp
  | cons pid L ih =>
      intro P hPL
      have hpid : pid ∈ idsOf ps := by
        rw [hPL]
        exact List.mem_append_right P (List.mem_cons_self pid L)
      have hpidP : pid ∉ P := by
        intro hc
        rw [hPL] at hnd
        rcases List.nodup_append.mp hnd with ⟨_, _, hdisj⟩
        exact hdisj hc (List.mem_cons_self pid L)
      have hPnd : P.Nodup := by
        rw [hPL] at hnd
        exact (List.nodup_append.mp hnd).1
      rcases findPerson_of_mem_ids ps pid hpid with ⟨p₀, hp₀mem, hp₀find, hp₀id⟩
      set G : List String → Person → Person :=
        fun P q => { q with spouses := q.spouses ++ spouseAppends ps P q } with hG
      have hGid : ∀ P q, (G P q).id = q.id := fun _ _ => rfl
      have hfind : findPerson (ps.map (G P)) pid = some (G P p₀) := by
        rw [findPerson_map ps (G P) (hGid P), hp₀find]
        rfl
      have hspofid : spousesOfId ps pid = p₀.spouses := by
        unfold spousesOfId
        rw [hp₀find]
        rfl
      have hsubP : ∀ q x, x ∈ spouseAppends ps P q → x ∈ P ∧
          q.id ∈ spousesOfId ps x ∧ x ∉ q.spouses := by
        intro q x hx
        unfold spouseAppends at hx
        rcases List.mem_filter.mp hx with ⟨h1, h2⟩
        rcases of_decide_eq_true h2 with ⟨h3, h4⟩
        exact ⟨h1, h3, h4⟩
      have hsnap : (G P p₀).spouses = p₀.spouses ++ spouseAppends ps P p₀ := rfl
      have hsnapnd : (G P p₀).spouses.Nodup := by
        rw [hsnap, List.nodup_append]
        refine ⟨hsnd p₀ hp₀mem, ?_, ?_⟩
        · unfold spouseAppends
          exact hPnd.filter _
        · intro x hx1 hx2
          exact (hsubP p₀ x hx2).2.2 hx1
      rw [List.foldl_cons]
      have key :
          (G P p₀).spouses.foldl
            (fun acc2 sid =>
              if existsId acc2 sid then
                updatePerson acc2 sid
                  (fun sp =>
                    if (G P p₀).id ∈ sp.spouses then sp
                    else { sp with spouses := sp.spouses ++ [(G P p₀).id] })
              else acc2)
            (ps.map (G P))
          = ps.map (G (P ++ [pid])) := by
        rw [foldl_update_eq_map
          (fun sp =>
            if (G P p₀).id ∈ sp.spouses then sp
            else { sp with spouses := sp.spouses ++ [(G P p₀).id] })
          (by
            intro x
            show (if (G P p₀).id ∈ x.spouses then x
                  else { x with spouses := x.spouses ++ [(G P p₀).id] }).id = x.id
            by_cases h : (G P p₀).id ∈ x.spouses
            · rw [if_pos h]
            · rw [if_neg h])
          (G P p₀).spouses hsnapnd (ps.map (G P)), List.map_map]
        apply List.map_congr_left
        intro q hq
        have hqspo : spousesOfId ps q.id = q.spouses := by
          unfold spousesOfId
          rw [findPerson_eq_some_of_mem ps q hnd hq]
          rfl
        have happ : spouseAppends ps (P ++ [pid]) q
            = spouseAppends ps P q ++
              (if q.id ∈ p₀.spouses ∧ pid ∉ q.spouses then [pid] else []) := by
          rw [spouseAppends_append]
          congr 1
          unfold spouseAppends
          rw [List.filter_cons]
          by_cases h : q.id ∈ spousesOfId ps pid ∧ pid ∉ q.spouses
          · rw [if_pos (decide_eq_true h)]
            rw [if_pos (by rwa [hspofid] at h)]
            simp
          · rw [if_neg (by simpa using h)]
            rw [if_neg (by rwa [hspofid] at h)]
            simp
        have hpidq : pid ∈ (G P q).spouses ↔ pid ∈ q.spouses := by
          show pid ∈ q.spouses ++ spouseAppends ps P q ↔ pid ∈ q.spouses
          rw [List.mem_append]
          constructor
          · rintro (h | h)
            · exact h
            · exact absurd (hsubP q pid h).1 hpidP
          · exact Or.inl
        show (if (G P q).id ∈ (G P p₀).spouses then
                (if (G P p₀).id ∈ (G P q).spouses then G P q
                 else { G P q with spouses := (G P q).spouses ++ [(G P p₀).id] })
              else G P q) = G (P ++ [pid]) q
        by_cases h1 : q.id ∈ (G P p₀).spouses
        · rw [if_pos (show (G P q).id ∈ (G P p₀).spouses from h1)]
          rw [hsnap, List.mem_append] at h1
          rcases h1 with h1 | h1
          · -- q.id is in p₀'s own spouse list
            by_cases h2 : pid ∈ q.spouses
            · rw [if_pos (show (G P p₀).id ∈ (G P q).spouses by
                rw [hp₀id]; exact hpidq.mpr h2)]
              show G P q = G (P ++ [pid]) q
              show ({ q with spouses := q.spouses ++ spouseAppends ps P q } : Person)
                  = { q with spouses := q.spouses ++ spouseAppends ps (P ++ [pid]) q }
              rw [happ, if_neg (fun hc => hc.2 h2), List.append_nil]
            · rw [if_neg (show ¬ (G P p₀).id ∈ (G P q).spouses by
                rw [hp₀id]; exact fun hc => h2 (hpidq.mp hc))]
              show ({ q with spouses :=
                      (q.spouses ++ spouseAppends ps P q) ++ [p₀.id] } : Person)
                  = { q with spouses := q.spouses ++ spouseAppends ps (P ++ [pid]) q }
              rw [happ, if_pos ⟨h1, h2⟩, hp₀id, List.append_assoc]
          · -- q.id was appended to p₀'s list during this pass
            have hmem : p₀.id ∈ spousesOfId ps q.id := (hsubP p₀ q.id h1).2.1
            rw [hqspo] at hmem
            rw [if_pos (show (G P p₀).id ∈ (G P q).spouses by
              rw [hp₀id]; exact hpidq.mpr (hp₀id ▸ hmem))]
            show G P q = G (P ++ [pid]) q
            show ({ q with spouses := q.spouses ++ spouseAppends ps P q } : Person)
                = { q with spouses := q.spouses ++ spouseAppends ps (P ++ [pid]) q }
            have hqnot : ¬ q.id ∈ p₀.spouses := (hsubP p₀ q.id h1).2.2
            rw [happ, if_neg (fun hc => hqnot hc.1), List.append_nil]
        · rw [if_neg (show ¬ (G P q).id ∈ (G P p₀).spouses from h1)]
          rw [hsnap, List.mem_append] at h1
          push_neg at h1
          show ({ q with spouses := q.spouses ++ spouseAppends ps P q } : Person)
              = { q with spouses := q.spouses ++ spouseAppends ps (P ++ [pid]) q }
          rw [happ, if_neg (fun hc => h1.1 hc.1), List.append_nil]
      have hstep :
          (match findPerson (ps.map (G P)) pid with
            | none => ps.map (G P)
            | some p =>
                p.spouses.foldl
                  (fun acc2 sid =>
                    if existsId acc2 sid then
                      updatePerson acc2 sid
                        (fun sp =>
                          if p.id ∈ sp.spouses then sp
                          else { sp with spouses := sp.spouses ++ [p.id] })
                    else acc2)
                  (ps.map (G P)))
          = ps.map (G (P ++ [pid])) := by
        rw [hfind]
        exact key
      rw [hstep, ih (P ++ [pid]) (by rw [hPL]; simp)]
      rw [List.append_assoc]
      rfl

theorem nPass4_eq (ps : List Person) (hnd : (idsOf ps).Nodup)
    (hsnd : ∀ p ∈ ps, p.spouses.Nodup) :
    nPass4 ps = ps.map (fun q =>
      { q with spouses := q.spouses ++ spouseAppends ps (idsOf ps) q }) := by
  have h0 : ps.map (fun q => { q with spouses := q.spouses ++ spouseAppends ps [] q }) = ps := by
    have hpt : ∀ q ∈ ps,
        ({ q with spouses := q.spouses ++ spouseAppends ps [] q } : Person) = id q := by
      intro q _
      simp [spouseAppends]
    rw [List.map_congr_left hpt, List.map_id]
  have hgo := nPass4_go ps hnd hsnd (idsOf ps) [] (by simp)
  rw [h0] at hgo
  unfold nPass4
  rw [hgo]
  simp

theorem existsId_congr (ps qs : List Person) (h : idsOf ps = idsOf qs)
    (x : String) : existsId ps x = existsId qs x := by
  rw [Bool.eq_iff_iff, existsId_iff, existsId_iff, h]

theorem parentsOfId_map (ps : List Person) (g : Person → Person)
    (hgid : ∀ p, (g p).id = p.id) (hgp : ∀ p, (g p).parents = p.parents)
    (j : String) : parentsOfId (ps.map g) j = parentsOfId ps j := by
  unfold parentsOfId
  rw [findPerson_map ps g hgid]
  cases findPerson ps j with
  | none => rfl
  | some p => simp [hgp]

theorem spousesOfId_map (ps : List Person) (g : Person → Person)
    (hgid : ∀ p, (g p).id = p.id) (hgs : ∀ p, (g p).spouses = p.spouses)
    (j : String) : spousesOfId (ps.map g) j = spousesOfId ps j := by
  unfold spousesOfId
  rw [findPerson_map ps g hgid]
  cases findPerson ps j with
  | none => rfl
  | some p => simp [hgs]

theorem nPass3_noop (ps : List Person)
    (h : ∀ p ∈ ps, p.children.Nodup ∧ ∀ x ∈ p.children, existsId ps x = true) :
    nPass3 ps = ps := by
  unfold nPass3
  have hpt : ∀ p ∈ ps,
      ({ p with children :=
          (dedupe p.children).filter (fun id => existsId ps id) } : Person) = id p := by
    intro p hp
    rw [dedupe_eq_self _ (h p hp).1, List.filter_eq_self.mpr (h p hp).2]
    rfl
  rw [List.map_congr_left hpt, List.map_id]

theorem normalizeCore_eq (ps : List Person) (hnd : (idsOf ps).Nodup) :
    normalizeCore ps = ps.map (normalForm ps) := by
  set f1 : Person → Person := fun p =>
    { p with
      children := ([] : List String),
      parents := (dedupe p.parents).filter (fun id => existsId ps id),
      spouses := (dedupe p.spouses).filter (fun id => existsId ps id) } with hf1
  have h1 : nPass1 ps = ps.map f1 := rfl
  have hf1id : ∀ p, (f1 p).id = p.id := fun _ => rfl
  have hids1 : idsOf (ps.map f1) = idsOf ps := idsOf_map ps f1 hf1id
  have hnd1 : (idsOf (ps.map f1)).Nodup := by rwa [hids1]
  have hch1 : ∀ p ∈ ps.map f1, p.children = [] := by
    intro p hp
    rcases List.mem_map.mp hp with ⟨q, _, rfl⟩
    rfl
  have hpnd1 : ∀ p ∈ ps.map f1, p.parents.Nodup := by
    intro p hp
    rcases List.mem_map.mp hp with ⟨q, _, rfl⟩
    exact (nodup_dedupe q.parents).filter _
  have hsnd1 : ∀ p ∈ ps.map f1, p.spouses.Nodup := by
    intro p hp
    rcases List.mem_map.mp hp with ⟨q, _, rfl⟩
    exact (nodup_dedupe q.spouses).filter _
  have h2 := nPass2_eq (ps.map f1) hnd1 hch1 hpnd1
  set F2 : Person → Person := fun q =>
    { q with children := childAppends (ps.map f1) (idsOf (ps.map f1)) q } with hF2
  have hF2id : ∀ p, (F2 p).id = p.id := fun _ => rfl
  have hF2sp : ∀ p, (F2 p).spouses = p.spouses := fun _ => rfl
  set s2 : List Person := (ps.map f1).map F2 with hs2
  have hids2 : idsOf s2 = idsOf ps := by
    rw [hs2, idsOf_map _ F2 hF2id, hids1]
  have hnd2 : (idsOf s2).Nodup := by rwa [hids2]
  have hchfacts : ∀ p ∈ s2, p.children.Nodup ∧ ∀ x ∈ p.children, existsId s2 x = true := by
    intro p hp
    rcases List.mem_map.mp hp with ⟨q, _, rfl⟩
    constructor
    · show (childAppends (ps.map f1) (idsOf (ps.map f1)) q).Nodup
      unfold childAppends
      exact hnd1.filter _
    · intro x hx
      have hx2 : x ∈ idsOf (ps.map f1) := List.mem_of_mem_filter hx
      rw [existsId_iff, hids2, ← hids1]
      exact hx2
  have h3 : nPass3 s2 = s2 := nPass3_noop s2 hchfacts
  have hsnd2 : ∀ p ∈ s2, p.spouses.Nodup := by
    intro p hp
    rcases List.mem_map.mp hp with ⟨q, hq, rfl⟩
    rw [hF2sp]
    exact hsnd1 q hq
  have h4 := nPass4_eq s2 hnd2 hsnd2
  have hspos : ∀ rid, spousesOfId s2 rid = spousesOfId (ps.map f1) rid := by
    intro rid
    rw [hs2]
    exact spousesOfId_map (ps.map f1) F2 hF2id hF2sp rid
  show nPass4 (nPass3 (nPass2 (nPass1 ps))) = ps.map (normalForm ps)
  rw [h1, h2]
  rw [h3, h4]
  rw [hs2, List.map_map, List.map_map]
  apply List.map_congr_left
  intro q hq
  simp only [Function.comp_apply]
  have hch : childAppends (ps.map f1) (idsOf (ps.map f1)) (f1 q)
      = (idsOf ps).filter (fun cid => decide (q.id ∈ parentsOfId (nPass1 ps) cid)) := by
    unfold childAppends
    rw [hids1]
    rfl
  have hsp : spouseAppends ((ps.map f1).map F2) (idsOf ((ps.map f1).map F2)) (F2 (f1 q))
      = (idsOf ps).filter (fun rid => decide (q.id ∈ spousesOfId (nPass1 ps) rid ∧
          rid ∉ (dedupe q.spouses).filter (fun id => existsId ps id))) := by
    unfold spouseAppends
    rw [show idsOf ((ps.map f1).map F2) = idsOf ps from hs2 ▸ hids2]
    apply List.filter_congr
    intro rid _
    have := hspos rid
    rw [hs2] at this
    simp only [this]
    rfl
  show ({ F2 (f1 q) with
      spouses := (F2 (f1 q)).spouses ++
        spouseAppends ((ps.map f1).map F2) (idsOf ((ps.map f1).map F2)) (F2 (f1 q)) } : Person)
    = normalForm ps q
  rw [hsp]
  unfold normalForm
  show ({ q with
      parents := (dedupe q.parents).filter (fun id => existsId ps id),
      children := childAppends (ps.map f1) (idsOf (ps.map f1)) (f1 q),
      spouses := ((dedupe q.spouses).filter (fun id => existsId ps id)) ++
        (idsOf ps).filter (fun rid => decide (q.id ∈ spousesOfId (nPass1 ps) rid ∧
          rid ∉ (dedupe q.spouses).filter (fun id => existsId ps id))) } : Person) = _
  rw [hch]

/-! ### Dangling-reference cleanup (claim C6) -/

theorem idsOf_updatePerson (ps : List Person) (i : String) (f : Person → Person)
    (hf : ∀ p, (f p).id = p.id) : idsOf (updatePerson ps i f) = idsOf ps := by
  unfold updatePerson
  apply idsOf_map
  intro p
  by_cases h : p.id = i
  · rw [if_pos h, hf]
  · rw [if_neg h]

theorem refsBound_updatePerson (base ps : List Person) (i : String)
    (f : Person → Person)
    (hf : ∀ p, (∀ x ∈ (f p).parents, x ∈ p.parents) ∧
      (∀ x ∈ (f p).children, x ∈ p.children ∨ existsId base x = true) ∧
      (∀ x ∈ (f p).spouses, x ∈ p.spouses ∨ existsId base x = true))
    (h : RefsBound base ps) : RefsBound base (updatePerson ps i f) := by
  intro p hp
  rcases List.mem_map.mp hp with ⟨q, hq, rfl⟩
  rcases h q hq with ⟨h1, h2, h3⟩
  by_cases hqi : q.id = i
  · rw [if_pos hqi]
    refine ⟨?_, ?_, ?_⟩
    · intro x hx
      exact h1 x ((hf q).1 x hx)
    · intro x hx
      rcases (hf q).2.1 x hx with hx' | hx'
      · exact h2 x hx'
      · exact hx'
    · intro x hx
      rcases (hf q).2.2 x hx with hx' | hx'
      · exact h3 x hx'
      · exact hx'
  · rw [if_neg hqi]
    exact ⟨h1, h2, h3⟩

theorem idsOf_child_fold (ps₀ : List Person) (v : String) :
    ∀ (pl : List String) (acc : List Person),
      idsOf (pl.foldl
        (fun acc2 pid =>
          if existsId acc2 pid then
            updatePerson acc2 pid
              (fun par => { par with children := par.children ++ [v] })
          else acc2) acc) = idsOf acc := by
  intro pl
  induction pl with
  | nil => intro acc; rfl
  | cons pid pl ih =>
      intro acc
      rw [List.foldl_cons, ih]
      by_cases h : existsId acc pid = true
      · rw [if_pos h]
        exact idsOf_updatePerson _ _ _ (fun _ => rfl)
      · rw [Bool.not_eq_true] at h
        rw [h]
        simp

theorem refsBound_child_fold (base : List Person) (v : String)
    (hv : existsId base v = true) :
    ∀ (pl : List String) (acc : List Person), RefsBound base acc →
      RefsBound base (pl.foldl
        (fun acc2 pid =>
          if existsId acc2 pid then
            updatePerson acc2 pid
              (fun par => { par with children := par.children ++ [v] })
          else acc2) acc) := by
  intro pl
  induction pl with
  | nil => intro acc h; exact h
  | cons pid pl ih =>
      intro acc h
      rw [List.foldl_cons]
      apply ih
      by_cases hex : existsId acc pid = true
      · rw [if_pos hex]
        apply refsBound_updatePerson base acc pid _ _ h
        intro p
        refine ⟨fun x hx => hx, fun x hx => ?_, fun x hx => Or.inl hx⟩
        rcases List.mem_append.mp hx with hx' | hx'
        · exact Or.inl hx'
        · rw [List.mem_singleton] at hx'
          subst hx'
          exact Or.inr hv
      · rw [Bool.not_eq_true] at hex
        rw [hex]
        simpa using h

theorem idsOf_spouse_fold (ps₀ : List Person) (v : String) :
    ∀ (sl : List String) (acc : List Person),
      idsOf (sl.foldl
        (fun acc2 sid =>
          if existsId acc2 sid then
            updatePerson acc2 sid
              (fun sp =>
                if v ∈ sp.spouses then sp
                else { sp with spouses := sp.spouses ++ [v] })
          else acc2) acc) = idsOf acc := by
  intro sl
  induction sl with
  | nil => intro acc; rfl
  | cons sid sl ih =>
      intro acc
      rw [List.foldl_cons, ih]
      by_cases h : existsId acc sid = true
      · rw [if_pos h]
        refine idsOf_updatePerson _ _ _ ?_
        intro p
        by_cases hv : v ∈ p.spouses
        · rw [if_pos hv]
        · rw [if_neg hv]
      · rw [Bool.not_eq_true] at h
        rw [h]
        simp

theorem refsBound_spouse_fold (base : List Person) (v : String)
    (hv : existsId base v = true) :
    ∀ (sl : List String) (acc : List Person), RefsBound base acc →
      RefsBound base (sl.foldl
        (fun acc2 sid =>
          if existsId acc2 sid then
            updatePerson acc2 sid
              (fun sp =>
                if v ∈ sp.spouses then sp
                else { sp with spouses := sp.spouses ++ [v] })
          else acc2) acc) := by
  intro sl
  induction sl with
  | nil => intro acc h; exact h
  | cons sid sl ih =>
      intro acc h
      rw [List.foldl_cons]
      apply ih
      by_cases hex : existsId acc sid = true
      · rw [if_pos hex]
        apply refsBound_updatePerson base acc sid _ _ h
        intro p
        by_cases hvp : v ∈ p.spouses
        · rw [if_pos hvp]
          exact ⟨fun x hx => hx, fun x hx => Or.inl hx, fun x hx => Or.inl hx⟩
        · rw [if_neg hvp]
          refine ⟨fun x hx => hx, fun x hx => Or.inl hx, fun x hx => ?_⟩
          rcases List.mem_append.mp hx with hx' | hx'
          · exact Or.inl hx'
          · rw [List.mem_singleton] at hx'
            subst hx'
            exact Or.inr hv
      · rw [Bool.not_eq_true] at hex
        rw [hex]
        simpa using h

theorem idsOf_nPass2 (ps : List Person) : idsOf (nPass2 ps) = idsOf ps := by
  unfold nPass2
  refine foldl_preserves_map Person.id _ ?_ (idsOf ps) ps
  intro acc cid
  cases hfp : findPerson acc cid with
  | none => rfl
  | some c =>
      show idsOf (c.parents.foldl _ acc) = idsOf acc
      exact idsOf_child_fold acc c.id c.parents acc

theorem refsBound_nPass2 (base ps : List Person) (hids : idsOf ps = idsOf base)
    (h : RefsBound base ps) : RefsBound base (nPass2 ps) := by
  unfold nPass2
  have main : ∀ (L : List String) (acc : List Person), idsOf acc = idsOf base →
      RefsBound base acc →
      RefsBound base (L.foldl
        (fun acc cid =>
          match findPerson acc cid with
          | none => acc
          | some c =>
              c.parents.foldl
                (fun acc2 pid =>
                  if existsId acc2 pid then
                    updatePerson acc2 pid
                      (fun par => { par with children := par.children ++ [c.id] })
                  else acc2)
                acc)
        acc) := by
    intro L
    induction L with
    | nil => intro acc _ hr; exact hr
    | cons cid L ih =>
        intro acc hid hr
        simp only [List.foldl_cons]
        cases hfp : findPerson acc cid with
        | none => exact ih acc hid hr
        | some c =>
            have hcmem : c ∈ acc := (findPerson_mem acc cid c hfp).1
            have hcid : existsId base c.id = true := by
              rw [existsId_iff, ← hid]
              exact List.mem_map.mpr ⟨c, hcmem, rfl⟩
            apply ih
            · rw [idsOf_child_fold acc c.id c.parents acc, hid]
            · exact refsBound_child_fold base c.id hcid c.parents acc hr
  exact main (idsOf ps) ps hids h

theorem idsOf_nPass4 (ps : List Person) : idsOf (nPass4 ps) = idsOf ps := by
  unfold nPass4
  refine foldl_preserves_map Person.id _ ?_ (idsOf ps) ps
  intro acc pid
  cases hfp : findPerson acc pid with
  | none => rfl
  | some p =>
      show idsOf (p.spouses.foldl _ acc) = idsOf acc
      exact idsOf_spouse_fold acc p.id p.spouses acc

theorem refsBound_nPass4 (base ps : List Person) (hids : idsOf ps = idsOf base)
    (h : RefsBound base ps) : RefsBound base (nPass4 ps) := by
  unfold nPass4
  have main : ∀ (L : List String) (acc : List Person), idsOf acc = idsOf base →
      RefsBound base acc →
      RefsBound base (L.foldl
        (fun acc pid =>
          match findPerson acc pid with
          | none => acc
          | some p =>
              p.spouses.foldl
                (fun acc2 sid =>
                  if existsId acc2 sid then
                    updatePerson acc2 sid
                      (fun sp =>
                        if p.id ∈ sp.spouses then sp
                        else { sp with spouses := sp.spouses ++ [p.id] })
                  else acc2)
                acc)
        acc) := by
    intro L
    induction L with
    | nil => intro acc _ hr; exact hr
    | cons pid L ih =>
        intro acc hid hr
        simp only [List.foldl_cons]
        cases hfp : findPerson acc pid with
        | none => exact ih acc hid hr
        | some p =>
            have hpmem : p ∈ acc := (findPerson_mem acc pid p hfp).1
            have hpid : existsId base p.id = true := by
              rw [existsId_iff, ← hid]
              exact List.mem_map.mpr ⟨p, hpmem, rfl⟩
            apply ih
            · rw [idsOf_spouse_fold acc p.id p.spouses acc, hid]
            · exact refsBound_spouse_fold base p.id hpid p.spouses acc hr
  exact main (idsOf ps) ps hids h

theorem idsOf_nPass1 (ps : List Person) : idsOf (nPass1 ps) = idsOf ps :=
  idsOf_map ps _ (fun _ => rfl)

theorem idsOf_nPass3 (ps : List Person) : idsOf (nPass3 ps) = idsOf ps :=
  idsOf_map ps _ (fun _ => rfl)

theorem refsBound_nPass1 (ps : List Person) : RefsBound ps (nPass1 ps) := by
  intro p hp
  rcases List.mem_map.mp hp with ⟨q, _, rfl⟩
  refine ⟨?_, ?_, ?_⟩
  · intro x hx
    exact (List.mem_filter.mp hx).2
  · intro x hx
    cases hx
  · intro x hx
    exact (List.mem_filter.mp hx).2

theorem refsBound_nPass3 (base ps : List Person) (hids : idsOf ps = idsOf base)
    (h : RefsBound base ps) : RefsBound base (nPass3 ps) := by
  intro p hp
  rcases List.mem_map.mp hp with ⟨q, hq, rfl⟩
  rcases h q hq with ⟨h1, _, h3⟩
  refine ⟨h1, ?_, h3⟩
  intro x hx
  have := (List.mem_filter.mp hx).2
  rwa [existsId_congr ps base hids] at this

/-- Claim C6: after `normalizeData`, every id appearing in any person's
`parents`, `children`, or `spouses` list resolves to an entry of the
input graph's person table (whose key set normalization preserves);
offending ids are filtered out silently, never reported. -/
theorem c6_normalizeData_no_dangling (g : FamilyData) :
    ∀ p ∈ (normalizeData g).people.getD [],
      (∀ x ∈ p.parents, existsId (g.people.getD []) x = true) ∧
      (∀ x ∈ p.children, existsId (g.people.getD []) x = true) ∧
      (∀ x ∈ p.spouses, existsId (g.people.getD []) x = true) := by
  show RefsBound (g.people.getD []) ((normalizeData g).people.getD [])
  have h0 : (normalizeData g).people.getD []
      = normalizeCore (g.people.getD []) := rfl
  rw [h0]
  unfold normalizeCore
  apply refsBound_nPass4
  · rw [idsOf_nPass3, idsOf_nPass2, idsOf_nPass1]
  · apply refsBound_nPass3
    · rw [idsOf_nPass2, idsOf_nPass1]
    · apply refsBound_nPass2
      · rw [idsOf_nPass1]
      · exact refsBound_nPass1 _

/-- Claim C6 witness: the normalized record of `z` in the raw sample
table references only resolvable ids. -/
theorem c6_witness :
    (mkP "z" none ["x"] [] []
      ∈ (normalizeData { people := some rawGraph }).people.getD []) ∧
    (∀ x ∈ (mkP "z" none ["x"] [] []).parents,
      existsId rawGraph x = true) := by
  refine ⟨by decide, ?_⟩
  exact (c6_normalizeData_no_dangling { people := some rawGraph }
    (mkP "z" none ["x"] [] []) (by decide)).1

/-! ### The normalized table: invariants and idempotence (claims C4, C5) -/

theorem normalForm_id (ps : List Person) (q : Person) :
    (normalForm ps q).id = q.id := rfl

theorem normalForm_parents (ps : List Person) (q : Person) :
    (normalForm ps q).parents
      = (dedupe q.parents).filter (fun id => existsId ps id) := rfl

theorem normalForm_children (ps : List Person) (q : Person) :
    (normalForm ps q).children
      = (idsOf ps).filter
          (fun cid => decide (q.id ∈ parentsOfId (nPass1 ps) cid)) := rfl

theorem normalForm_spouses (ps : List Person) (q : Person) :
    (normalForm ps q).spouses
      = (dedupe q.spouses).filter (fun id => existsId ps id) ++
        (idsOf ps).filter
          (fun rid => decide (q.id ∈ spousesOfId (nPass1 ps) rid ∧
            rid ∉ (dedupe q.spouses).filter (fun id => existsId ps id))) := rfl

theorem parentsOfId_nPass1 (ps : List Person) (hnd : (idsOf ps).Nodup)
    (c : Person) (hc : c ∈ ps) :
    parentsOfId (nPass1 ps) c.id
      = (dedupe c.parents).filter (fun id => existsId ps id) := by
  unfold parentsOfId nPass1
  rw [findPerson_map ps
    (fun p => { p with
      children := ([] : List String),
      parents := (dedupe p.parents).filter (fun id => existsId ps id),
      spouses := (dedupe p.spouses).filter (fun id => existsId ps id) })
    (fun _ => rfl), findPerson_eq_some_of_mem ps c hnd hc]
  rfl

theorem spousesOfId_nPass1 (ps : List Person) (hnd : (idsOf ps).Nodup)
    (c : Person) (hc : c ∈ ps) :
    spousesOfId (nPass1 ps) c.id
      = (dedupe c.spouses).filter (fun id => existsId ps id) := by
  unfold spousesOfId nPass1
  rw [findPerson_map ps
    (fun p => { p with
      children := ([] : List String),
      parents := (dedupe p.parents).filter (fun id => existsId ps id),
      spouses := (dedupe p.spouses).filter (fun id => existsId ps id) })
    (fun _ => rfl), findPerson_eq_some_of_mem ps c hnd hc]
  rfl

theorem normalForm_spouses_mem (ps : List Person) (hnd : (idsOf ps).Nodup)
    (q r : Person) (hq : q ∈ ps) (hr : r ∈ ps) :
    r.id ∈ (normalForm ps q).spouses ↔
      (r.id ∈ (dedupe q.spouses).filter (fun id => existsId ps id) ∨
       q.id ∈ (dedupe r.spouses).filter (fun id => existsId ps id)) := by
  have hso := spousesOfId_nPass1 ps hnd r hr
  have hrid : r.id ∈ idsOf ps := List.mem_map.mpr ⟨r, hr, rfl⟩
  rw [normalForm_spouses, List.mem_append]
  simp only [List.mem_filter, decide_eq_true_eq, hso]
  tauto

theorem normalForm_spouses_nodup (ps : List Person) (hnd : (idsOf ps).Nodup)
    (q : Person) : (normalForm ps q).spouses.Nodup := by
  rw [normalForm_spouses, List.nodup_append]
  refine ⟨(nodup_dedupe q.spouses).filter _, hnd.filter _, ?_⟩
  intro x hx hx2
  have := (List.mem_filter.mp hx2).2
  rw [decide_eq_true_eq] at this
  exact this.2 hx

theorem normalForm_spouses_sub (ps : List Person) (q : Person) :
    ∀ x ∈ (normalForm ps q).spouses, existsId ps x = true := by
  intro x hx
  rw [normalForm_spouses, List.mem_append] at hx
  rcases hx with hx | hx
  · exact (List.mem_filter.mp hx).2
  · rw [existsId_iff]
    exact List.mem_of_mem_filter hx

/-- Claim C4: in any normalized graph, `children` is exactly the inverse
of `parents` (duplicate-free), and the spouse relation is symmetric. -/
theorem c4_children_exact_spouses_symmetric (g : FamilyData)
    (hnd : (idsOf (g.people.getD [])).Nodup) :
    (∀ p ∈ (normalizeData g).people.getD [],
      p.children.Nodup ∧
      ∀ cid, (cid ∈ p.children ↔
        ∃ c ∈ (normalizeData g).people.getD [], c.id = cid ∧ p.id ∈ c.parents)) ∧
    (∀ p ∈ (normalizeData g).people.getD [],
      ∀ q ∈ (normalizeData g).people.getD [],
        (q.id ∈ p.spouses ↔ p.id ∈ q.spouses)) := by
  have h0 : (normalizeData g).people.getD []
      = normalizeCore (g.people.getD []) := rfl
  set ps := g.people.getD [] with hps
  rw [h0, normalizeCore_eq ps hnd]
  constructor
  · intro p hp
    rcases List.mem_map.mp hp with ⟨q₀, hq₀, rfl⟩
    constructor
    · rw [normalForm_children]
      exact hnd.filter _
    · intro cid
      rw [normalForm_children, List.mem_filter, decide_eq_true_eq]
      constructor
      · rintro ⟨h1, h2⟩
        rcases List.mem_map.mp h1 with ⟨c₀, hc₀, rfl⟩
        refine ⟨normalForm ps c₀, List.mem_map.mpr ⟨c₀, hc₀, rfl⟩, rfl, ?_⟩
        rw [normalForm_id, normalForm_parents]
        rw [parentsOfId_nPass1 ps hnd c₀ hc₀] at h2
        exact h2
      · rintro ⟨c, hc, hcid, hpin⟩
        rcases List.mem_map.mp hc with ⟨c₀, hc₀, rfl⟩
        rw [normalForm_id] at hcid
        subst hcid
        constructor
        · exact List.mem_map.mpr ⟨c₀, hc₀, rfl⟩
        · rw [parentsOfId_nPass1 ps hnd c₀ hc₀]
          rw [normalForm_id, normalForm_parents] at hpin
          exact hpin
  · intro p hp q hq
    rcases List.mem_map.mp hp with ⟨q₀, hq₀, rfl⟩
    rcases List.mem_map.mp hq with ⟨r₀, hr₀, rfl⟩
    rw [show (normalForm ps r₀).id = r₀.id from rfl,
      show (normalForm ps q₀).id = q₀.id from rfl,
      normalForm_spouses_mem ps hnd q₀ r₀ hq₀ hr₀,
      normalForm_spouses_mem ps hnd r₀ q₀ hr₀ hq₀]
    exact Or.comm

/-- Claim C4 witness: the symmetry instance on the normalized `rawGraph`
(where only `x` listed `y` as a spouse before normalization). -/
theorem c4_witness :
    ("y" ∈ (mkP "x" none [] ["y"] ["z"]).spouses ↔
      "x" ∈ (mkP "y" none [] ["x"] []).spouses) :=
  (c4_children_exact_spouses_symmetric { people := some rawGraph }
      (by decide)).2
    (mkP "x" none [] ["y"] ["z"]) (by decide)
    (mkP "y" none [] ["x"] []) (by decide)

theorem restore_filter (r : List Person) (l : List String) (hl : l.Nodup)
    (hsub : ∀ x ∈ l, existsId r x = true) :
    (dedupe l).filter (fun id => existsId r id) = l := by
  rw [dedupe_eq_self l hl, List.filter_eq_self.mpr hsub]

theorem normalForm_fixpoint (ps : List Person) (hnd : (idsOf ps).Nodup) :
    ∀ x ∈ ps.map (normalForm ps),
      normalForm (ps.map (normalForm ps)) x = x := by
  intro x hx
  rcases List.mem_map.mp hx with ⟨q₀, hq₀, rfl⟩
  set r : List Person := ps.map (normalForm ps) with hr
  have hidsr : idsOf r = idsOf ps := idsOf_map ps (normalForm ps) (normalForm_id ps)
  have hndr : (idsOf r).Nodup := by rwa [hidsr]
  have hexc : ∀ y, existsId r y = existsId ps y :=
    existsId_congr r ps (by rw [hidsr])
  set x : Person := normalForm ps q₀ with hxq
  -- component restorations
  have hparnd : x.parents.Nodup := by
    rw [hxq, normalForm_parents]
    exact (nodup_dedupe q₀.parents).filter _
  have hparsub : ∀ y ∈ x.parents, existsId r y = true := by
    intro y hy
    rw [hxq, normalForm_parents] at hy
    rw [hexc y]
    exact (List.mem_filter.mp hy).2
  have hpar : (dedupe x.parents).filter (fun id => existsId r id) = x.parents :=
    restore_filter r x.parents hparnd hparsub
  have hspnd : x.spouses.Nodup := normalForm_spouses_nodup ps hnd q₀
  have hspsub : ∀ y ∈ x.spouses, existsId r y = true := by
    intro y hy
    rw [hexc y]
    exact normalForm_spouses_sub ps q₀ y hy
  have hsp : (dedupe x.spouses).filter (fun id => existsId r id) = x.spouses :=
    restore_filter r x.spouses hspnd hspsub
  -- spouses of nPass1 r members restore to normalForm spouses
  have hsor : ∀ c₀ ∈ ps, spousesOfId (nPass1 r) c₀.id = (normalForm ps c₀).spouses := by
    intro c₀ hc₀
    have hm : normalForm ps c₀ ∈ r := List.mem_map.mpr ⟨c₀, hc₀, rfl⟩
    have := spousesOfId_nPass1 r hndr (normalForm ps c₀) hm
    rw [show (normalForm ps c₀).id = c₀.id from rfl] at this
    rw [this]
    exact restore_filter r (normalForm ps c₀).spouses
      (normalForm_spouses_nodup ps hnd c₀)
      (fun y hy => by rw [hexc y]; exact normalForm_spouses_sub ps c₀ y hy)
  have hpor : ∀ c₀ ∈ ps, parentsOfId (nPass1 r) c₀.id = (normalForm ps c₀).parents := by
    intro c₀ hc₀
    have hm : normalForm ps c₀ ∈ r := List.mem_map.mpr ⟨c₀, hc₀, rfl⟩
    have := parentsOfId_nPass1 r hndr (normalForm ps c₀) hm
    rw [show (normalForm ps c₀).id = c₀.id from rfl] at this
    rw [this]
    refine restore_filter r (normalForm ps c₀).parents ?_ ?_
    · rw [normalForm_parents]
      exact (nodup_dedupe c₀.parents).filter _
    · intro y hy
      rw [normalForm_parents] at hy
      rw [hexc y]
      exact (List.mem_filter.mp hy).2
  -- children equality
  have hch : (idsOf r).filter
      (fun cid => decide (x.id ∈ parentsOfId (nPass1 r) cid)) = x.children := by
    rw [hidsr]
    rw [show x.children = (idsOf ps).filter
      (fun cid => decide (q₀.id ∈ parentsOfId (nPass1 ps) cid)) from rfl]
    apply List.filter_congr
    intro cid hcid
    rcases List.mem_map.mp hcid with ⟨c₀, hc₀, rfl⟩
    rw [hpor c₀ hc₀, parentsOfId_nPass1 ps hnd c₀ hc₀]
    rw [show x.id = q₀.id from rfl]
    rw [show (normalForm ps c₀).parents
      = (dedupe c₀.parents).filter (fun id => existsId ps id) from rfl]
  -- the second-run spouse propagation adds nothing
  have hempty : (idsOf r).filter
      (fun rid => decide (x.id ∈ spousesOfId (nPass1 r) rid ∧
        rid ∉ (dedupe x.spouses).filter (fun id => existsId r id))) = [] := by
    rw [List.filter_eq_nil_iff]
    intro rid hrid
    rw [hidsr] at hrid
    rcases List.mem_map.mp hrid with ⟨r₀, hr₀, rfl⟩
    rw [decide_eq_true_eq, hsp]
    rintro ⟨h1, h2⟩
    apply h2
    rw [hsor r₀ hr₀] at h1
    rw [show x.id = q₀.id from rfl] at h1
    have h1' := (normalForm_spouses_mem ps hnd r₀ q₀ hr₀ hq₀).mp h1
    rw [hxq]
    exact (normalForm_spouses_mem ps hnd q₀ r₀ hq₀ hr₀).mpr (Or.comm.mp h1')
  show ({ x with
      parents := (dedupe x.parents).filter (fun id => existsId r id),
      children := (idsOf r).filter
        (fun cid => decide (x.id ∈ parentsOfId (nPass1 r) cid)),
      spouses := ((dedupe x.spouses).filter (fun id => existsId r id)) ++
        (idsOf r).filter
          (fun rid => decide (x.id ∈ spousesOfId (nPass1 r) rid ∧
            rid ∉ (dedupe x.spouses).filter (fun id => existsId r id))) } : Person) = x
  rw [hempty, List.append_nil, hsp, hpar, hch]

/-- Claim C5: normalization is idempotent; in particular, running the
one-way spouse propagation a second time on an already-normalized graph
changes nothing. -/
theorem c5_normalize_idempotent (g : FamilyData)
    (hnd : (idsOf (g.people.getD [])).Nodup) :
    normalizeData (normalizeData g) = normalizeData g := by
  set ps := g.people.getD [] with hps
  have h1 : normalizeCore ps = ps.map (normalForm ps) := normalizeCore_eq ps hnd
  have hndr : (idsOf (ps.map (normalForm ps))).Nodup := by
    rw [idsOf_map ps (normalForm ps) (normalForm_id ps)]
    exact hnd
  have h2 := normalizeCore_eq (ps.map (normalForm ps)) hndr
  have hcore : normalizeCore (normalizeCore ps) = normalizeCore ps := by
    rw [h1, h2, List.map_congr_left (normalForm_fixpoint ps hnd), List.map_id']
  show ({ people := some (normalizeCore (normalizeCore ps)) } : FamilyData)
      = { people := some (normalizeCore ps) }
  rw [hcore]

/-- Claim C5 witness: idempotence on the concrete `rawGraph`. -/
theorem c5_witness :
    normalizeData (normalizeData { people := some rawGraph })
      = normalizeData { people := some rawGraph } :=
  c5_normalize_idempotent { people := some rawGraph } (by decide)

/-! ### Healing of malformed input (claim C7) and the v1 frame (claim C10) -/

/-- Claim C7: `normalizeData` is a total function of its input — the
embedding has no failure case — and an input whose top-level `people`
collection is absent is healed to the empty collection
(`src/script.js:483`). -/
theorem c7_missing_people_healed (d : FamilyData) (h : d.people = none) :
    normalizeData d = { people := some [] } := by
  show ({ people := some (normalizeCore (d.people.getD [])) } : FamilyData)
      = { people := some [] }
  rw [h]
  rfl

/-- Claim C7 witness. -/
theorem c7_witness :
    normalizeData { people := none } = { people := some [] } :=
  c7_missing_people_healed { people := none } rfl

theorem v1Children_map {γ : Type} (g : Person → γ)
    (hg : ∀ (p : Person) (c : List String), g { p with children := c } = g p)
    (ps : List Person) : (v1Children ps).map g = ps.map g := by
  unfold v1Children
  rw [foldl_preserves_map g _ ?_ (idsOf ps)
    (ps.map (fun p => { p with children := [] }))]
  · rw [List.map_map]
    apply List.map_congr_left
    intro p _
    exact hg p []
  · intro acc cid
    cases hfp : findPerson acc cid with
    | none => rfl
    | some c =>
        show (c.parents.foldl _ acc).map g = acc.map g
        refine foldl_preserves_map g _ ?_ c.parents acc
        intro acc2 pid
        by_cases h : existsId acc2 pid = true
        · rw [if_pos h]
          unfold updatePerson
          rw [List.map_map]
          apply List.map_congr_left
          intro p _
          by_cases hp : p.id = pid
          · simp only [Function.comp_apply, if_pos hp]
            exact hg p _
          · simp only [Function.comp_apply, if_neg hp]
        · rw [Bool.not_eq_true] at h
          rw [h]
          simp

theorem v1Spouses_map {γ : Type} (g : Person → γ)
    (hg : ∀ (p : Person) (s : List String), g { p with spouses := s } = g p)
    (ps : List Person) : (v1Spouses ps).map g = ps.map g := by
  unfold v1Spouses
  rw [foldl_preserves_map g _ ?_ (idsOf ps)
    (ps.map (fun p => { p with spouses := dedupe p.spouses }))]
  · rw [List.map_map]
    apply List.map_congr_left
    intro p _
    exact hg p _
  · intro acc pid
    cases hfp : findPerson acc pid with
    | none => rfl
    | some p =>
        show (p.spouses.foldl _ acc).map g = acc.map g
        refine foldl_preserves_map g _ ?_ p.spouses acc
        intro acc2 sid
        by_cases h : existsId acc2 sid = true
        · rw [if_pos h]
          unfold updatePerson
          rw [List.map_map]
          apply List.map_congr_left
          intro q _
          by_cases hq : q.id = sid
          · simp only [Function.comp_apply, if_pos hq]
            exact hg q _
          · simp only [Function.comp_apply, if_neg hq]
        · rw [Bool.not_eq_true] at h
          rw [h]
          simp

/-- Claim C10: `normalizeDataV1` (the `src/script.js:8-38` revision)
modifies only the relationship lists and the `gender`/`marriedCity`
defaults: `id`, `name`, `year`, `bio`, `deceased` and `photo` are
unchanged for every person, the population is unchanged (same entries in
the same order), and absent `gender`/`marriedCity` values are filled with
the empty string. -/
theorem c10_v1_frame (ps : List Person) :
    (normalizeDataV1 ps).map
        (fun p => (p.id, p.name, p.year, p.bio, p.deceased, p.photo))
      = ps.map (fun p => (p.id, p.name, p.year, p.bio, p.deceased, p.photo)) ∧
    (normalizeDataV1 ps).map (fun p => (p.gender, p.marriedCity))
      = ps.map (fun p =>
          (some (p.gender.getD ""), some (p.marriedCity.getD ""))) := by
  constructor
  · show (v1Hygiene (v1Spouses (v1Children ps))).map _ = _
    unfold v1Hygiene
    rw [List.map_map]
    calc (v1Spouses (v1Children ps)).map _
        = (v1Spouses (v1Children ps)).map
            (fun p : Person => (p.id, p.name, p.year, p.bio, p.deceased, p.photo)) :=
          List.map_congr_left (fun p _ => rfl)
      _ = (v1Children ps).map
            (fun p : Person => (p.id, p.name, p.year, p.bio, p.deceased, p.photo)) :=
          v1Spouses_map
            (fun p : Person => (p.id, p.name, p.year, p.bio, p.deceased, p.photo))
            (fun _ _ => rfl) (v1Children ps)
      _ = ps.map (fun p : Person => (p.id, p.name, p.year, p.bio, p.deceased, p.photo)) :=
          v1Children_map
            (fun p : Person => (p.id, p.name, p.year, p.bio, p.deceased, p.photo))
            (fun _ _ => rfl) ps
  · show (v1Hygiene (v1Spouses (v1Children ps))).map _ = _
    unfold v1Hygiene
    rw [List.map_map]
    calc (v1Spouses (v1Children ps)).map _
        = (v1Spouses (v1Children ps)).map
            (fun p : Person => (some (p.gender.getD ""), some (p.marriedCity.getD ""))) :=
          List.map_congr_left (fun p _ => rfl)
      _ = (v1Children ps).map
            (fun p : Person => (some (p.gender.getD ""), some (p.marriedCity.getD ""))) :=
          v1Spouses_map
            (fun p : Person => (some (p.gender.getD ""), some (p.marriedCity.getD "")))
            (fun _ _ => rfl) (v1Children ps)
      _ = ps.map
            (fun p : Person => (some (p.gender.getD ""), some (p.marriedCity.getD ""))) :=
          v1Children_map
            (fun p : Person => (some (p.gender.getD ""), some (p.marriedCity.getD "")))
            (fun _ _ => rfl) ps

/-! ### The multi-generation branch (claim C1) and avuncular direction
(claim C2), concrete parts -/

/-- Claim C1 (bug evidence): on Scenario 1's graph (`a` father of `b`,
`b` father of `c`, all male), the resolver returns descendant/"grandson"
for `resolve(g,a,c)` — the claim and the code's own comment at
`src/script.js:280` call for ancestor/"grandfather" — and conversely
labels the grandchild `c` a "grandfather" of `a`: the two
multi-generation branches test `generationsUpTo` in the direction
opposite to the one their comments and the spec describe. -/
theorem c1_grandparent_label_inverted :
    relationFromAToB scenario1Graph "a" "c"
      = { type := RelType.descendant, label := "grandson" } ∧
    relationFromAToB scenario1Graph "c" "a"
      = { type := RelType.ancestor, label := "grandfather" } := by
  decide

/-- Claim C2 counterexample: in Scenario 4's graph (`b` a sibling of
`a`'s parent `m`, everyone male) `resolve(g,a,b)` labels `a` as "nephew",
not "uncle" as the claim states; the "uncle" label belongs to the inverse
query. -/
theorem c2_counterexample :
    relationFromAToB scenario4Graph "a" "b"
      = { type := RelType.avuncular, label := "nephew" } ∧
    relationFromAToB scenario4Graph "a" "b"
      ≠ { type := RelType.avuncular, label := "uncle" } ∧
    relationFromAToB scenario4Graph "b" "a"
      = { type := RelType.avuncular, label := "uncle" } := by
  decide

/-- Claim C3 counterexample: the `gen<=limit` loop of `ancestorMap`
(`src/script.js:374`) collects ancestors up to `limit + 1 = 9`
generations, not 8: on two nine-step parent chains meeting at `r`, the
depth-8 ancestor map of `a0` contains `r` at generation 9, and the
resolver reports an "eighth cousin" through that ancestor. -/
theorem c3_counterexample :
    ("r", 9) ∈ ancestorMap deepCousinGraph "a0" 8 ∧
    relationFromAToB deepCousinGraph "a0" "b0"
      = { type := RelType.cousin, label := "eighth cousin" } := by
  decide

theorem shareAParent_comm (ps : List Person) (a b : String) :
    shareAParent ps a b = shareAParent ps b a := by
  unfold shareAParent
  rw [Bool.eq_iff_iff, List.any_eq_true, List.any_eq_true]
  constructor
  · rintro ⟨x, hx1, hx2⟩
    rw [decide_eq_true_eq] at hx2
    exact ⟨x, hx2, decide_eq_true hx1⟩
  · rintro ⟨x, hx1, hx2⟩
    rw [decide_eq_true_eq] at hx2
    exact ⟨x, hx2, decide_eq_true hx1⟩

/-- Claim C2 (amended): when `b` is a sibling of one of `a`'s parents and
no earlier rule of the cascade applies (including the first avuncular
check), `resolve(g,a,b)` labels `a` as the niece/nephew and the inverse
query labels `b` as the aunt/uncle. -/
theorem c2_amended_avuncular (ps : List Person) (a b : String) (A B : Person)
    (hA : findPerson ps a = some A) (hB : findPerson ps b = some B)
    (hne : a ≠ b)
    (hsp1 : b ∉ A.spouses) (hsp2 : a ∉ B.spouses)
    (hpar1 : a ∉ B.parents) (hpar2 : b ∉ A.parents)
    (hup1 : generationsUpTo ps a b ≤ 1) (hup2 : generationsUpTo ps b a ≤ 1)
    (hsib : shareAParent ps a b = false)
    (hav1 : B.parents.any (fun p => shareAParent ps a p) = false)
    (hav2 : A.parents.any (fun p => shareAParent ps b p) = true) :
    relationFromAToB ps a b
      = { type := RelType.avuncular,
          label := genderLabel A.gender "nephew" "niece" "niece/nephew" } ∧
    relationFromAToB ps b a
      = { type := RelType.avuncular,
          label := genderLabel B.gender "uncle" "aunt" "aunt/uncle" } := by
  have hne' : b ≠ a := fun h => hne h.symm
  have hup1' : ¬ generationsUpTo ps a b > 1 := by omega
  have hup2' : ¬ generationsUpTo ps b a > 1 := by omega
  have hsib' : shareAParent ps b a = false := by
    rw [shareAParent_comm]
    exact hsib
  constructor
  · simp only [relationFromAToB, hA, hB, if_neg hne, hsp1, hpar1, hpar2,
      hup1', hup2', hsib, hav1, hav2, Bool.false_eq_true, if_false, if_true,
      ite_false, ite_true]
  · simp only [relationFromAToB, hA, hB, if_neg hne', hsp2, hpar1, hpar2,
      hup1', hup2', hsib', hav2, Bool.false_eq_true, if_false, if_true,
      ite_false, ite_true]

/-- Claim C2 (amended) witness: Scenario 4's graph. -/
theorem c2_amended_witness :
    relationFromAToB scenario4Graph "a" "b"
      = { type := RelType.avuncular, label := "nephew" } ∧
    relationFromAToB scenario4Graph "b" "a"
      = { type := RelType.avuncular, label := "uncle" } :=
  c2_amended_avuncular scenario4Graph "a" "b"
    (mkP "a" (some "male") ["m"] [] []) (mkP "b" (some "male") ["p"] [] [])
    (by decide) (by decide) (by decide) (by decide) (by decide) (by decide)
    (by decide) (by decide) (by decide) (by decide) (by decide) (by decide)

/-! ### The cousin rule (claim C3) -/

theorem commonAncestors_cons_none (ancB : List (String × Nat))
    (e : String × Nat) (l : List (String × Nat))
    (hlk : lookupGen ancB e.1 = none) :
    commonAncestors (e :: l) ancB = commonAncestors l ancB := by
  unfold commonAncestors
  rw [List.filterMap_cons]
  simp [hlk]

theorem commonAncestors_cons_some (ancB : List (String × Nat))
    (e : String × Nat) (l : List (String × Nat)) (genB : Nat)
    (hlk : lookupGen ancB e.1 = some genB) :
    commonAncestors (e :: l) ancB
      = (e.1, e.2, genB) :: commonAncestors l ancB := by
  unfold commonAncestors
  rw [List.filterMap_cons]
  simp [hlk]

theorem cousinBest_fold_none (ancB : List (String × Nat)) :
    ∀ (l : List (String × Nat)) (b : Option (String × Nat × Nat)),
      l.foldl
        (fun best e =>
          match lookupGen ancB e.1 with
          | none => best
          | some genB =>
              match best with
              | none => some (e.1, e.2, genB)
              | some b =>
                  if e.2 + genB < b.2.1 + b.2.2 then some (e.1, e.2, genB)
                  else some b)
        b = none →
      b = none ∧ commonAncestors l ancB = [] := by
  intro l
  induction l with
  | nil =>
      intro b h
      exact ⟨h, rfl⟩
  | cons e l ih =>
      intro b h
      rw [List.foldl_cons] at h
      cases hlk : lookupGen ancB e.1 with
      | none =>
          rw [hlk] at h
          dsimp only at h
          rw [commonAncestors_cons_none ancB e l hlk]
          exact ih b h
      | some genB =>
          rw [hlk] at h
          cases b with
          | none =>
              dsimp only at h
              cases (ih _ h).1
          | some bb =>
              dsimp only at h
              by_cases hlt : e.2 + genB < bb.2.1 + bb.2.2
              · rw [if_pos hlt] at h
                cases (ih _ h).1
              · rw [if_neg hlt] at h
                cases (ih _ h).1

theorem cousinBest_fold_some (ancB : List (String × Nat)) :
    ∀ (l : List (String × Nat)) (b : Option (String × Nat × Nat))
      (c : String × Nat × Nat),
      l.foldl
        (fun best e =>
          match lookupGen ancB e.1 with
          | none => best
          | some genB =>
              match best with
              | none => some (e.1, e.2, genB)
              | some b =>
                  if e.2 + genB < b.2.1 + b.2.2 then some (e.1, e.2, genB)
                  else some b)
        b = some c →
      (b = some c ∨ c ∈ commonAncestors l ancB) ∧
      (∀ c' ∈ commonAncestors l ancB, c.2.1 + c.2.2 ≤ c'.2.1 + c'.2.2) ∧
      (∀ b', b = some b' → c.2.1 + c.2.2 ≤ b'.2.1 + b'.2.2) := by
  intro l
  induction l with
  | nil =>
      intro b c h
      have hb : b = some c := h
      refine ⟨Or.inl hb, ?_, ?_⟩
      · intro c' hc'
        cases hc'
      · intro b' hb'
        rw [hb'] at hb
        injection hb with hb
        rw [hb]
  | cons e l ih =>
      intro b c h
      rw [List.foldl_cons] at h
      cases hlk : lookupGen ancB e.1 with
      | none =>
          rw [hlk] at h
          dsimp only at h
          rw [commonAncestors_cons_none ancB e l hlk]
          exact ih b c h
      | some genB =>
          rw [hlk] at h
          rw [commonAncestors_cons_some ancB e l genB hlk]
          cases b with
          | none =>
              dsimp only at h
              rcases ih _ c h with ⟨h1, h2, h3⟩
              have hle : c.2.1 + c.2.2 ≤ e.2 + genB := h3 _ rfl
              refine ⟨?_, ?_, ?_⟩
              · rcases h1 with h1 | h1
                · injection h1 with h1
                  exact Or.inr (h1 ▸ List.mem_cons_self _ _)
                · exact Or.inr (List.mem_cons_of_mem _ h1)
              · intro c' hc'
                rcases List.mem_cons.mp hc' with rfl | hc'
                · exact hle
                · exact h2 c' hc'
              · intro b' hb'
                cases hb'
          | some bb =>
              dsimp only at h
              by_cases hlt : e.2 + genB < bb.2.1 + bb.2.2
              · rw [if_pos hlt] at h
                rcases ih _ c h with ⟨h1, h2, h3⟩
                have hle : c.2.1 + c.2.2 ≤ e.2 + genB := h3 _ rfl
                refine ⟨?_, ?_, ?_⟩
                · rcases h1 with h1 | h1
                  · injection h1 with h1
                    exact Or.inr (h1 ▸ List.mem_cons_self _ _)
                  · exact Or.inr (List.mem_cons_of_mem _ h1)
                · intro c' hc'
                  rcases List.mem_cons.mp hc' with rfl | hc'
                  · exact hle
                  · exact h2 c' hc'
                · intro b' hb'
                  injection hb' with hb'
                  subst hb'
                  exact Nat.le_trans hle (Nat.le_of_lt hlt)
              · rw [if_neg hlt] at h
                rcases ih _ c h with ⟨h1, h2, h3⟩
                have hle : c.2.1 + c.2.2 ≤ bb.2.1 + bb.2.2 := h3 _ rfl
                refine ⟨?_, ?_, ?_⟩
                · rcases h1 with h1 | h1
                  · exact Or.inl h1
                  · exact Or.inr (List.mem_cons_of_mem _ h1)
                · intro c' hc'
                  rcases List.mem_cons.mp hc' with rfl | hc'
                  · exact Nat.le_trans hle (Nat.le_of_not_lt hlt)
                  · exact h2 c' hc'
                · intro b' hb'
                  injection hb' with hb'
                  subst hb'
                  exact hle

theorem amFold_bound (ps : List Person) (gen bound : Nat) (hg : gen + 1 ≤ bound) :
    ∀ (l : List String) (st : List String × List String × List (String × Nat)),
      (∀ e ∈ st.2.2, e.2 ≤ bound) →
      ∀ e ∈ (l.foldl
          (fun (st : List String × List String × List (String × Nat)) i =>
            (parentsOfId ps i).foldl
              (fun st2 p =>
                if p ∈ st2.1 then st2
                else
                  (st2.1 ++ [p], st2.2.1 ++ [p],
                   if st2.2.2.any (fun e => e.1 = p) then st2.2.2
                   else st2.2.2 ++ [(p, gen + 1)]))
              st)
          st).2.2, e.2 ≤ bound := by
  have hin : ∀ (pl : List String)
      (st2 : List String × List String × List (String × Nat)),
      (∀ e ∈ st2.2.2, e.2 ≤ bound) →
      ∀ e ∈ (pl.foldl
          (fun st2 p =>
            if p ∈ st2.1 then st2
            else
              (st2.1 ++ [p], st2.2.1 ++ [p],
               if st2.2.2.any (fun e => e.1 = p) then st2.2.2
               else st2.2.2 ++ [(p, gen + 1)]))
          st2).2.2, e.2 ≤ bound := by
    intro pl
    induction pl with
    | nil => intro st2 h2; exact h2
    | cons p pl ih2 =>
        intro st2 h2
        rw [List.foldl_cons]
        apply ih2
        by_cases hp : p ∈ st2.1
        · rw [if_pos hp]
          exact h2
        · rw [if_neg hp]
          by_cases hm : st2.2.2.any (fun e => e.1 = p) = true
          · rw [if_pos hm]
            exact h2
          · rw [Bool.not_eq_true] at hm
            rw [hm]
            simp only [Bool.false_eq_true, if_false]
            intro e he
            rcases List.mem_append.mp he with he' | he'
            · exact h2 e he'
            · rw [List.mem_singleton] at he'
              subst he'
              exact hg
  intro l
  induction l with
  | nil => intro st h; exact h
  | cons i l ih =>
      intro st h
      rw [List.foldl_cons]
      apply ih
      exact hin (parentsOfId ps i) st h

theorem amAux_bound (ps : List Person) :
    ∀ (fuel : Nat) (frontier seen : List String) (m : List (String × Nat))
      (gen : Nat),
      (∀ e ∈ m, e.2 ≤ gen + fuel) →
      ∀ e ∈ amAux ps fuel frontier seen m gen, e.2 ≤ gen + fuel := by
  intro fuel
  induction fuel with
  | zero =>
      intro frontier seen m gen hm
      cases frontier with
      | nil => exact hm
      | cons id rest => exact hm
  | succ fuel ih =>
      intro frontier seen m gen hm
      cases frontier with
      | nil => exact hm
      | cons id rest =>
          intro e he
          have hfold : ∀ e ∈ ((id :: rest).foldl
              (fun (st : List String × List String × List (String × Nat)) i =>
                (parentsOfId ps i).foldl
                  (fun st2 p =>
                    if p ∈ st2.1 then st2
                    else
                      (st2.1 ++ [p], st2.2.1 ++ [p],
                       if st2.2.2.any (fun e => e.1 = p) then st2.2.2
                       else st2.2.2 ++ [(p, gen + 1)]))
                  st)
              (seen, [], m)).2.2, e.2 ≤ (gen + 1) + fuel := by
            refine amFold_bound ps gen ((gen + 1) + fuel) (by omega) (id :: rest)
              (seen, [], m) ?_
            intro e' he'
            have := hm e' he'
            omega
          have hrec := ih _ _ _ (gen + 1) hfold e he
          omega

theorem ancestorMap_bound (ps : List Person) (x : String) (limit : Nat) :
    ∀ e ∈ ancestorMap ps x limit, e.2 ≤ limit + 1 := by
  intro e he
  have := amAux_bound ps (limit + 1) [x] [x] [] 0
    (by intro e' he'; cases he') e he
  omega

/-- Claim C3 (amended): when no earlier rule of the cascade applies and
`a` and `b` have a common ancestor among the depth-8 ancestor maps (which
in fact collect ancestors up to 9 — not 8 — generations away), and every
minimal-sum common ancestor sits at least two generations up on both
sides, the resolver reports a cousin relationship whose degree is
`min(genA,genB) - 1` and whose removal is `|genA - genB|` for a common
ancestor minimizing `genA + genB`. -/
theorem c3_amended_cousin (ps : List Person) (a b : String) (A B : Person)
    (hA : findPerson ps a = some A) (hB : findPerson ps b = some B)
    (hne : a ≠ b)
    (hsp1 : b ∉ A.spouses)
    (hpar1 : a ∉ B.parents) (hpar2 : b ∉ A.parents)
    (hup1 : generationsUpTo ps a b ≤ 1) (hup2 : generationsUpTo ps b a ≤ 1)
    (hsib : shareAParent ps a b = false)
    (hav1 : B.parents.any (fun p => shareAParent ps a p) = false)
    (hav2 : A.parents.any (fun p => shareAParent ps b p) = false)
    (hcom : commonAncestors (ancestorMap ps a 8) (ancestorMap ps b 8) ≠ [])
    (hdeg : ∀ c ∈ commonAncestors (ancestorMap ps a 8) (ancestorMap ps b 8),
      (∀ c' ∈ commonAncestors (ancestorMap ps a 8) (ancestorMap ps b 8),
        c.2.1 + c.2.2 ≤ c'.2.1 + c'.2.2) → 2 ≤ min c.2.1 c.2.2) :
    (∃ c ∈ commonAncestors (ancestorMap ps a 8) (ancestorMap ps b 8),
      (∀ c' ∈ commonAncestors (ancestorMap ps a 8) (ancestorMap ps b 8),
        c.2.1 + c.2.2 ≤ c'.2.1 + c'.2.2) ∧
      relationFromAToB ps a b
        = { type := RelType.cousin,
            label := cousinPhrase (min c.2.1 c.2.2 - 1)
              (max c.2.1 c.2.2 - min c.2.1 c.2.2) }) ∧
    (∀ e ∈ ancestorMap ps a 8, e.2 ≤ 9) ∧
    (∀ e ∈ ancestorMap ps b 8, e.2 ≤ 9) := by
  have hup1' : ¬ generationsUpTo ps a b > 1 := by omega
  have hup2' : ¬ generationsUpTo ps b a > 1 := by omega
  obtain ⟨c, hcb⟩ :
      ∃ c, cousinBest (ancestorMap ps a 8) (ancestorMap ps b 8) = some c := by
    cases hcb : cousinBest (ancestorMap ps a 8) (ancestorMap ps b 8) with
    | none =>
        exact absurd (cousinBest_fold_none (ancestorMap ps b 8)
          (ancestorMap ps a 8) none hcb).2 hcom
    | some c => exact ⟨c, rfl⟩
  rcases cousinBest_fold_some (ancestorMap ps b 8) (ancestorMap ps a 8)
      none c hcb with ⟨hmem0, hmin, _⟩
  have hmem : c ∈ commonAncestors (ancestorMap ps a 8) (ancestorMap ps b 8) := by
    rcases hmem0 with h | h
    · cases h
    · exact h
  have hk : 2 ≤ min c.2.1 c.2.2 := hdeg c hmem hmin
  have hlabel : cousinLabel ps a b
      = some (cousinPhrase (min c.2.1 c.2.2 - 1)
          (max c.2.1 c.2.2 - min c.2.1 c.2.2)) := by
    unfold cousinLabel
    dsimp only
    rw [hcb]
    dsimp only
    rw [if_neg (show ¬ min c.2.1 c.2.2 - 1 < 1 by omega)]
    unfold cousinPhrase
    by_cases hr : max c.2.1 c.2.2 - min c.2.1 c.2.2 = 0
    · rw [if_pos hr, if_pos hr]
    · rw [if_neg hr, if_neg hr]
  refine ⟨⟨c, hmem, hmin, ?_⟩, ?_, ?_⟩
  · simp only [relationFromAToB, hA, hB, if_neg hne, hsp1, hpar1, hpar2,
      hup1', hup2', hsib, hav1, hav2, Bool.false_eq_true, if_false, if_true,
      ite_false, ite_true, hlabel]
  · intro e he
    have := ancestorMap_bound ps a 8 e he
    omega
  · intro e he
    have := ancestorMap_bound ps b 8 e he
    omega

/-- Claim C3 (amended) witness: Scenario 3's first-cousin graph, whose
single common ancestor `g` sits two generations up on both sides. -/
theorem c3_amended_witness :
    relationFromAToB scenario3Graph "a" "b"
      = { type := RelType.cousin, label := "first cousin" } := by
  rcases (c3_amended_cousin scenario3Graph "a" "b"
      (mkP "a" none ["p1"] [] []) (mkP "b" none ["p2"] [] [])
      (by decide) (by decide) (by decide) (by decide) (by decide) (by decide)
      (by decide) (by decide) (by decide) (by decide) (by decide)
      (by decide) (by decide)).1 with ⟨c, hc, _, heq⟩
  have hc' : c ∈ [(("g" : String), (2 : Nat), (2 : Nat))] := hc
  rw [List.mem_singleton] at hc'
  subst hc'
  exact heq

/-! ### Termination of the traversals (claim C8) -/

theorem filter_length_mono (p q : String → Bool)
    (h : ∀ x, p x = true → q x = true) :
    ∀ l : List String, (l.filter p).length ≤ (l.filter q).length := by
  intro l
  induction l with
  | nil => exact Nat.le_refl _
  | cons a l ih =>
      rw [List.filter_cons, List.filter_cons]
      by_cases hp : p a = true
      · rw [if_pos hp, if_pos (h a hp)]
        exact Nat.succ_le_succ ih
      · rw [Bool.not_eq_true] at hp
        rw [hp]
        simp only [Bool.false_eq_true, if_false]
        by_cases hq : q a = true
        · rw [if_pos hq]
          exact Nat.le_trans ih (Nat.le_succ _)
        · rw [Bool.not_eq_true] at hq
          rw [hq]
          simpa using ih

theorem unseen_append_lt (l sn : List String) (n : String)
    (hn : n ∈ l) (hns : n ∉ sn) :
    (l.filter (fun x => decide (x ∉ sn ++ [n]))).length + 1
      ≤ (l.filter (fun x => decide (x ∉ sn))).length := by
  induction l with
  | nil => cases hn
  | cons a l ih =>
      rw [List.filter_cons, List.filter_cons]
      by_cases han : a = n
      · subst han
        rw [if_neg (by simp), if_pos (by simpa using hns)]
        have hmono := filter_length_mono
          (fun x => decide (x ∉ sn ++ [a])) (fun x => decide (x ∉ sn))
          (by
            intro x hx
            rw [decide_eq_true_eq] at hx ⊢
            intro hc
            exact hx (List.mem_append_left _ hc)) l
        simpa using Nat.succ_le_succ hmono
      · have hna : n ∈ l := by
          rcases List.mem_cons.mp hn with h | h
          · exact absurd h.symm han
          · exact h
        by_cases ha : a ∈ sn
        · rw [if_neg (by simpa using fun h => absurd h (by simp [ha])),
            if_neg (by simpa using ha)]
          exact ih hna
        · rw [if_pos (by
            rw [decide_eq_true_eq]
            intro hc
            rcases List.mem_append.mp hc with hc | hc
            · exact ha hc
            · rw [List.mem_singleton] at hc
              exact han hc),
            if_pos (by simpa using ha)]
          simpa using ih hna

theorem bfs_fold_measure (ps : List Person) (a b cur : String) :
    ∀ (nl : List String)
      (st : Sum (List String) (List String × List (String × String) × List String))
      (q' : List String) (pr' : List (String × String)) (sn' : List String),
      nl.foldl
        (fun st n =>
          match st with
          | Sum.inl path => Sum.inl path
          | Sum.inr (q, pr, sn) =>
              if ¬ existsId ps n ∨ n ∈ sn then Sum.inr (q, pr, sn)
              else
                let pr2 := pr ++ [(n, cur)]
                let sn2 := sn ++ [n]
                if n = b then
                  Sum.inl ((rebuildPath pr2 a (pr2.length + 1) b [b]).reverse)
                else Sum.inr (q ++ [n], pr2, sn2))
        st = Sum.inr (q', pr', sn') →
      (∀ (q : List String) (pr : List (String × String)) (sn : List String),
        st = Sum.inr (q, pr, sn) →
        q'.length + ((idsOf ps).filter (fun x => decide (x ∉ sn'))).length
          ≤ q.length + ((idsOf ps).filter (fun x => decide (x ∉ sn))).length) ∧
      (∀ p, st = Sum.inl p → False) := by
  intro nl
  induction nl with
  | nil =>
      intro st q' pr' sn' h
      constructor
      · intro q pr sn hst
        rw [hst] at h
        injection h with h
        injection h with h1 h
        injection h with h2 h3
        subst h1
        subst h3
        exact Nat.le_refl _
      · intro p hp
        rw [hp] at h
        cases h
  | cons n nl ih =>
      intro st q' pr' sn' h
      rw [List.foldl_cons] at h
      have IH := ih _ q' pr' sn' h
      constructor
      · intro q pr sn hst
        subst hst
        by_cases hskip : ¬ existsId ps n ∨ n ∈ sn
        · refine IH.1 q pr sn ?_
          dsimp only
          rw [if_pos hskip]
        · push_neg at hskip
          rcases hskip with ⟨hex, hnsn⟩
          by_cases hnb : n = b
          · exfalso
            refine IH.2 ((rebuildPath (pr ++ [(n, cur)]) a
              ((pr ++ [(n, cur)]).length + 1) b [b]).reverse) ?_
            dsimp only
            rw [if_neg (by push_neg; exact ⟨hex, hnsn⟩), if_pos hnb]
          · have hineq := IH.1 (q ++ [n]) (pr ++ [(n, cur)]) (sn ++ [n]) ?_
            · have hlt := unseen_append_lt (idsOf ps) sn n
                (by rwa [← existsId_iff]) hnsn
              rw [List.length_append, List.length_singleton] at hineq
              omega
            · dsimp only
              rw [if_neg (by push_neg; exact ⟨hex, hnsn⟩), if_neg hnb]
      · intro p hp
        subst hp
        exact IH.2 p rfl

theorem findPathAux_total (ps : List Person) (a b : String) :
    ∀ (fuel : Nat) (queue : List String) (prev : List (String × String))
      (seen : List String),
      queue.length + ((idsOf ps).filter (fun x => decide (x ∉ seen))).length
        ≤ fuel →
      findPathAux ps a b fuel queue prev seen ≠ none := by
  intro fuel
  induction fuel with
  | zero =>
      intro queue prev seen hμ
      have hq : queue = [] := by
        cases queue with
        | nil => rfl
        | cons x q => simp at hμ
      subst hq
      show (if ([] : List String).isEmpty then some none else none) ≠ none
      simp
  | succ fuel ih =>
      intro queue prev seen hμ
      cases queue with
      | nil =>
          show (some none : Option (Option (List String))) ≠ none
          simp
      | cons cur queue =>
          show (match
              (match findPerson ps cur with
                | some p => p.parents ++ p.spouses ++ p.children
                | none => []).foldl _ (Sum.inr (queue, prev, seen)) with
            | Sum.inl path => some (some path)
            | Sum.inr (q, pr, sn) => findPathAux ps a b fuel q pr sn) ≠ none
          cases hfold :
              (match findPerson ps cur with
                | some p => p.parents ++ p.spouses ++ p.children
                | none => []).foldl
              (fun st n =>
                match st with
                | Sum.inl path => Sum.inl path
                | Sum.inr (q, pr, sn) =>
                    if ¬ existsId ps n ∨ n ∈ sn then Sum.inr (q, pr, sn)
                    else
                      let pr2 := pr ++ [(n, cur)]
                      let sn2 := sn ++ [n]
                      if n = b then
                        Sum.inl ((rebuildPath pr2 a (pr2.length + 1) b [b]).reverse)
                      else Sum.inr (q ++ [n], pr2, sn2))
              (Sum.inr (queue, prev, seen)) with
          | inl path => simp
          | inr st =>
              rcases st with ⟨q', pr', sn'⟩
              show findPathAux ps a b fuel q' pr' sn' ≠ none
              apply ih
              have := (bfs_fold_measure ps a b cur _
                (Sum.inr (queue, prev, seen)) q' pr' sn' hfold).1 queue prev seen rfl
              rw [List.length_cons] at hμ
              omega

/-- Claim C8: every resolver query terminates.  The upward walks are
total by their explicit depth caps (`generationsUpTo` never exceeds its
cap of 12, `ancestorMap` collects generations of at most `limit + 1`),
and the fallback breadth-first search enqueues each person at most once,
so the fuel `ps.length + 1` given to its loop in `findPath` is never
exhausted: the loop always completes with a result. -/
theorem c8_resolver_terminates (ps : List Person) (a b : String) :
    (∃ r, findPathAux ps a b (ps.length + 1) [a] [] [a] = some r) ∧
    (∀ e ∈ ancestorMap ps a 8, e.2 ≤ 9) := by
  constructor
  · have hμ : ([a] : List String).length +
        ((idsOf ps).filter (fun x => decide (x ∉ ([a] : List String)))).length
          ≤ ps.length + 1 := by
      have h1 := List.length_filter_le
        (fun x => decide (x ∉ ([a] : List String))) (idsOf ps)
      have h2 : (idsOf ps).length = ps.length := List.length_map _ _
      simp only [List.length_singleton]
      omega
    have h := findPathAux_total ps a b (ps.length + 1) [a] [] [a] hμ
    cases hx : findPathAux ps a b (ps.length + 1) [a] [] [a] with
    | none => exact absurd hx h
    | some r => exact ⟨r, rfl⟩
  · intro e he
    have := ancestorMap_bound ps a 8 e he
    omega

/-! ### Connectivity and the fallback search (claim C9) -/

theorem edgeStep_symm (ps : List Person) (hg : GoodGraph ps) :
    ∀ u v, edgeStep ps u v → edgeStep ps v u := by
  rintro u v ⟨hu, hv, hn⟩
  refine ⟨hv, hu, ?_⟩
  rw [existsId_iff] at hu hv
  rcases findPerson_of_mem_ids ps u hu with ⟨pu, hpu, hfu, hpuid⟩
  rcases findPerson_of_mem_ids ps v hv with ⟨pv, hpv, hfv, hpvid⟩
  unfold neighborsOfId at hn ⊢
  rw [hfu] at hn
  rw [hfv]
  rcases hg with ⟨_, _, hiff⟩
  rcases List.mem_append.mp hn with hn' | hn'
  · rcases List.mem_append.mp hn' with hn'' | hn''
    · -- v is a parent of u: u is a child of v
      have := ((hiff pv hpv pu hpu).1).mp (hpvid ▸ hn'')
      rw [hpuid] at this
      exact List.mem_append_right _ this
    · -- v is a spouse of u
      have := ((hiff pv hpv pu hpu).2).mp (hpvid ▸ hn'')
      rw [hpuid] at this
      exact List.mem_append_left _ (List.mem_append_right _ this)
  · -- v is a child of u: u is a parent of v
    have := ((hiff pu hpu pv hpv).1).mpr (hpvid ▸ hn')
    rw [hpuid] at this
    exact List.mem_append_left _ (List.mem_append_left _ this)

theorem reachable_symm (ps : List Person) (hg : GoodGraph ps) :
    ∀ u v, Reachable ps u v → Reachable ps v u := by
  intro u v h
  induction h with
  | refl => exact Relation.ReflTransGen.refl
  | tail _ hstep ih =>
      exact Relation.ReflTransGen.head (edgeStep_symm ps hg _ _ hstep) ih

theorem edge_parent (ps : List Person) (hg : GoodGraph ps) (u v : String)
    (pu : Person) (hfu : findPerson ps u = some pu) (hv : v ∈ pu.parents) :
    edgeStep ps u v := by
  rcases findPerson_mem ps u pu hfu with ⟨hpu, hpuid⟩
  refine ⟨?_, ?_, ?_⟩
  · rw [existsId_iff]
    exact hpuid ▸ List.mem_map.mpr ⟨pu, hpu, rfl⟩
  · exact (hg.2.1 pu hpu).1 v hv
  · unfold neighborsOfId
    rw [hfu]
    exact List.mem_append_left _ (List.mem_append_left _ hv)

theorem edge_spouse (ps : List Person) (hg : GoodGraph ps) (u v : String)
    (pu : Person) (hfu : findPerson ps u = some pu) (hv : v ∈ pu.spouses) :
    edgeStep ps u v := by
  rcases findPerson_mem ps u pu hfu with ⟨hpu, hpuid⟩
  refine ⟨?_, ?_, ?_⟩
  · rw [existsId_iff]
    exact hpuid ▸ List.mem_map.mpr ⟨pu, hpu, rfl⟩
  · exact (hg.2.1 pu hpu).2.2 v hv
  · unfold neighborsOfId
    rw [hfu]
    exact List.mem_append_left _ (List.mem_append_right _ hv)

theorem edge_parentsOfId (ps : List Person) (hg : GoodGraph ps) (u v : String)
    (hu : existsId ps u = true) (hv : v ∈ parentsOfId ps u) :
    edgeStep ps u v := by
  rw [existsId_iff] at hu
  rcases findPerson_of_mem_ids ps u hu with ⟨pu, _, hfu, _⟩
  unfold parentsOfId at hv
  rw [hfu] at hv
  exact edge_parent ps hg u v pu hfu hv

theorem scanFrontier_none_mem (ps : List Person) (y : String) :
    ∀ (frontier visited next : List String),
      scanFrontier ps y frontier visited next = none → y ∈ frontier := by
  intro frontier
  induction frontier with
  | nil =>
      intro visited next h
      cases h
  | cons id rest ih =>
      intro visited next h
      unfold scanFrontier at h
      by_cases hid : id = y
      · exact List.mem_cons.mpr (Or.inl hid.symm)
      · rw [if_neg hid] at h
        exact List.mem_cons_of_mem _ (ih _ _ h)

theorem parentsFold_mem (ps : List Person) :
    ∀ (pl : List String) (vn : List String × List String),
      ∀ p ∈ (pl.foldl
          (fun (vn : List String × List String) p =>
            if p ∈ vn.1 then vn else (vn.1 ++ [p], vn.2 ++ [p]))
          vn).2, p ∈ vn.2 ∨ p ∈ pl := by
  intro pl
  induction pl with
  | nil =>
      intro vn p hp
      exact Or.inl hp
  | cons x pl ih =>
      intro vn p hp
      rw [List.foldl_cons] at hp
      by_cases hx : x ∈ vn.1
      · rw [if_pos hx] at hp
        rcases ih vn p hp with h | h
        · exact Or.inl h
        · exact Or.inr (List.mem_cons_of_mem _ h)
      · rw [if_neg hx] at hp
        rcases ih _ p hp with h | h
        · rcases List.mem_append.mp h with h' | h'
          · exact Or.inl h'
          · rw [List.mem_singleton] at h'
            exact Or.inr (List.mem_cons.mpr (Or.inl h'))
        · exact Or.inr (List.mem_cons_of_mem _ h)

theorem scanFrontier_some_mem (ps : List Person) (y : String) :
    ∀ (frontier visited next : List String) (v' next' : List String),
      scanFrontier ps y frontier visited next = some (v', next') →
      ∀ p ∈ next', p ∈ next ∨ ∃ i ∈ frontier, p ∈ parentsOfId ps i := by
  intro frontier
  induction frontier with
  | nil =>
      intro visited next v' next' h p hp
      unfold scanFrontier at h
      injection h with h
      injection h with h1 h2
      subst h2
      exact Or.inl hp
  | cons id rest ih =>
      intro visited next v' next' h p hp
      unfold scanFrontier at h
      by_cases hid : id = y
      · rw [if_pos hid] at h
        cases h
      · rw [if_neg hid] at h
        rcases ih _ _ v' next' h p hp with h' | ⟨i, hi, hpi⟩
        · rcases parentsFold_mem ps (parentsOfId ps id) (visited, next) p h' with h'' | h''
          · exact Or.inl h''
          · exact Or.inr ⟨id, List.mem_cons_self _ _, h''⟩
        · exact Or.inr ⟨i, List.mem_cons_of_mem _ hi, hpi⟩

theorem guAux_reach (ps : List Person) (hg : GoodGraph ps) (x y : String) :
    ∀ (fuel : Nat) (frontier visited : List String) (gen : Nat),
      (∀ i ∈ frontier, Reachable ps x i ∧ existsId ps i = true) →
      guAux ps y fuel frontier visited gen ≠ 0 →
      Reachable ps x y := by
  intro fuel
  induction fuel with
  | zero =>
      intro frontier visited gen hinv h
      cases frontier with
      | nil => exact absurd rfl h
      | cons id rest => exact absurd rfl h
  | succ fuel ih =>
      intro frontier visited gen hinv h
      cases frontier with
      | nil => exact absurd rfl h
      | cons id rest =>
          have hred : guAux ps y (fuel + 1) (id :: rest) visited gen
              = match scanFrontier ps y (id :: rest) visited [] with
                | none => gen
                | some (v, next) => guAux ps y fuel next v (gen + 1) := rfl
          cases hsc : scanFrontier ps y (id :: rest) visited [] with
          | none =>
              have hy := scanFrontier_none_mem ps y (id :: rest) visited [] hsc
              exact (hinv y hy).1
          | some vn =>
              rcases vn with ⟨v, next⟩
              rw [hred, hsc] at h
              refine ih next v (gen + 1) ?_ h
              intro i hi
              rcases scanFrontier_some_mem ps y (id :: rest) visited [] v next
                  hsc i hi with h' | ⟨j, hj, hij⟩
              · cases h'
              · rcases hinv j hj with ⟨hreach, hexist⟩
                have hedge := edge_parentsOfId ps hg j i hexist hij
                refine ⟨Relation.ReflTransGen.tail hreach hedge, hedge.2.1⟩

theorem amFold_mem (ps : List Person) (gen : Nat) :
    ∀ (l : List String) (st : List String × List String × List (String × Nat)),
      (∀ p ∈ (l.foldl
          (fun (st : List String × List String × List (String × Nat)) i =>
            (parentsOfId ps i).foldl
              (fun st2 p =>
                if p ∈ st2.1 then st2
                else
                  (st2.1 ++ [p], st2.2.1 ++ [p],
                   if st2.2.2.any (fun e => e.1 = p) then st2.2.2
                   else st2.2.2 ++ [(p, gen + 1)]))
              st)
          st).2.1, p ∈ st.2.1 ∨ ∃ i ∈ l, p ∈ parentsOfId ps i) ∧
      (∀ e ∈ (l.foldl
          (fun (st : List String × List String × List (String × Nat)) i =>
            (parentsOfId ps i).foldl
              (fun st2 p =>
                if p ∈ st2.1 then st2
                else
                  (st2.1 ++ [p], st2.2.1 ++ [p],
                   if st2.2.2.any (fun e => e.1 = p) then st2.2.2
                   else st2.2.2 ++ [(p, gen + 1)]))
              st)
          st).2.2, e ∈ st.2.2 ∨ ∃ i ∈ l, e.1 ∈ parentsOfId ps i) := by
  have hin : ∀ (pl : List String)
      (st2 : List String × List String × List (String × Nat)),
      (∀ p ∈ (pl.foldl
          (fun st2 p =>
            if p ∈ st2.1 then st2
            else
              (st2.1 ++ [p], st2.2.1 ++ [p],
               if st2.2.2.any (fun e => e.1 = p) then st2.2.2
               else st2.2.2 ++ [(p, gen + 1)]))
          st2).2.1, p ∈ st2.2.1 ∨ p ∈ pl) ∧
      (∀ e ∈ (pl.foldl
          (fun st2 p =>
            if p ∈ st2.1 then st2
            else
              (st2.1 ++ [p], st2.2.1 ++ [p],
               if st2.2.2.any (fun e => e.1 = p) then st2.2.2
               else st2.2.2 ++ [(p, gen + 1)]))
          st2).2.2, e ∈ st2.2.2 ∨ e.1 ∈ pl) := by
    intro pl
    induction pl with
    | nil =>
        intro st2
        exact ⟨fun p hp => Or.inl hp, fun e he => Or.inl he⟩
    | cons x pl ih =>
        intro st2
        rw [List.foldl_cons]
        by_cases hx : x ∈ st2.1
        · rw [if_pos hx]
          refine ⟨fun p hp => ?_, fun e he => ?_⟩
          · rcases (ih st2).1 p hp with h | h
            · exact Or.inl h
            · exact Or.inr (List.mem_cons_of_mem _ h)
          · rcases (ih st2).2 e he with h | h
            · exact Or.inl h
            · exact Or.inr (List.mem_cons_of_mem _ h)
        · rw [if_neg hx]
          refine ⟨fun p hp => ?_, fun e he => ?_⟩
          · rcases (ih _).1 p hp with h | h
            · rcases List.mem_append.mp h with h' | h'
              · exact Or.inl h'
              · rw [List.mem_singleton] at h'
                exact Or.inr (List.mem_cons.mpr (Or.inl h'))
            · exact Or.inr (List.mem_cons_of_mem _ h)
          · by_cases hm : st2.2.2.any (fun e => e.1 = x) = true
            · rw [if_pos hm] at he
              rcases (ih _).2 e he with h | h
              · exact Or.inl h
              · exact Or.inr (List.mem_cons_of_mem _ h)
            · rw [Bool.not_eq_true] at hm
              rw [hm] at he
              simp only [Bool.false_eq_true, if_false] at he
              rcases (ih _).2 e he with h | h
              · rcases List.mem_append.mp h with h' | h'
                · exact Or.inl h'
                · rw [List.mem_singleton] at h'
                  subst h'
                  exact Or.inr (List.mem_cons.mpr (Or.inl rfl))
              · exact Or.inr (List.mem_cons_of_mem _ h)
  intro l
  induction l with
  | nil =>
      intro st
      exact ⟨fun p hp => Or.inl hp, fun e he => Or.inl he⟩
  | cons i l ih =>
      intro st
      rw [List.foldl_cons]
      refine ⟨fun p hp => ?_, fun e he => ?_⟩
      · rcases (ih _).1 p hp with h | ⟨j, hj, hpj⟩
        · rcases (hin (parentsOfId ps i) st).1 p h with h' | h'
          · exact Or.inl h'
          · exact Or.inr ⟨i, List.mem_cons_self _ _, h'⟩
        · exact Or.inr ⟨j, List.mem_cons_of_mem _ hj, hpj⟩
      · rcases (ih _).2 e he with h | ⟨j, hj, hpj⟩
        · rcases (hin (parentsOfId ps i) st).2 e h with h' | h'
          · exact Or.inl h'
          · exact Or.inr ⟨i, List.mem_cons_self _ _, h'⟩
        · exact Or.inr ⟨j, List.mem_cons_of_mem _ hj, hpj⟩

theorem amAux_reach (ps : List Person) (hg : GoodGraph ps) (x : String) :
    ∀ (fuel : Nat) (frontier seen : List String) (m : List (String × Nat))
      (gen : Nat),
      (∀ i ∈ frontier, Reachable ps x i ∧ existsId ps i = true) →
      (∀ e ∈ m, Reachable ps x e.1 ∧ existsId ps e.1 = true) →
      ∀ e ∈ amAux ps fuel frontier seen m gen,
        Reachable ps x e.1 ∧ existsId ps e.1 = true := by
  intro fuel
  induction fuel with
  | zero =>
      intro frontier seen m gen hfr hm
      cases frontier with
      | nil => exact hm
      | cons id rest => exact hm
  | succ fuel ih =>
      intro frontier seen m gen hfr hm
      cases frontier with
      | nil => exact hm
      | cons id rest =>
          intro e he
          have hstep : ∀ j ∈ (id :: rest), ∀ p ∈ parentsOfId ps j,
              Reachable ps x p ∧ existsId ps p = true := by
            intro j hj p hp
            rcases hfr j hj with ⟨hreach, hexist⟩
            have hedge := edge_parentsOfId ps hg j p hexist hp
            exact ⟨Relation.ReflTransGen.tail hreach hedge, hedge.2.1⟩
          refine ih _ _ _ (gen + 1) ?_ ?_ e he
          · intro p hp
            rcases (amFold_mem ps gen (id :: rest) (seen, [], m)).1 p hp with
              h | ⟨j, hj, hpj⟩
            · cases h
            · exact hstep j hj p hpj
          · intro e' he'
            rcases (amFold_mem ps gen (id :: rest) (seen, [], m)).2 e' he' with
              h | ⟨j, hj, hpj⟩
            · exact hm e' h
            · exact hstep j hj e'.1 hpj

theorem ancestorMap_reach (ps : List Person) (hg : GoodGraph ps) (x : String)
    (hx : existsId ps x = true) (limit : Nat) :
    ∀ e ∈ ancestorMap ps x limit,
      Reachable ps x e.1 ∧ existsId ps e.1 = true := by
  refine amAux_reach ps hg x (limit + 1) [x] [x] [] 0 ?_ ?_
  · intro i hi
    rw [List.mem_singleton] at hi
    subst hi
    exact ⟨Relation.ReflTransGen.refl, hx⟩
  · intro e he
    cases he

theorem lookupGen_mem (m : List (String × Nat)) (id : String) (g : Nat)
    (h : lookupGen m id = some g) : (∃ e ∈ m, e.1 = id) := by
  unfold lookupGen at h
  cases hf : m.find? (fun e => e.1 = id) with
  | none =>
      rw [hf] at h
      cases h
  | some e =>
      refine ⟨e, List.mem_of_find?_eq_some hf, ?_⟩
      have := List.find?_some hf
      rwa [decide_eq_true_eq] at this

theorem commonAncestors_mem (ancA ancB : List (String × Nat))
    (c : String × Nat × Nat) (hc : c ∈ commonAncestors ancA ancB) :
    (∃ e ∈ ancA, e.1 = c.1) ∧ (∃ e ∈ ancB, e.1 = c.1) := by
  unfold commonAncestors at hc
  rcases List.mem_filterMap.mp hc with ⟨e, he, hfe⟩
  cases hlk : lookupGen ancB e.1 with
  | none =>
      rw [hlk] at hfe
      cases hfe
  | some gB =>
      rw [hlk] at hfe
      injection hfe with hfe
      have h1 : e.1 = c.1 := congrArg Prod.fst hfe
      refine ⟨⟨e, he, h1⟩, ?_⟩
      rcases lookupGen_mem ancB e.1 gB hlk with ⟨e', he', h2⟩
      exact ⟨e', he', h2.trans h1⟩

theorem cousinLabel_some_reach (ps : List Person) (hg : GoodGraph ps)
    (a b : String) (ha : existsId ps a = true) (hb : existsId ps b = true)
    (lbl : String) (h : cousinLabel ps a b = some lbl) :
    Reachable ps a b := by
  unfold cousinLabel at h
  dsimp only at h
  cases hcb : cousinBest (ancestorMap ps a 8) (ancestorMap ps b 8) with
  | none =>
      rw [hcb] at h
      cases h
  | some c =>
      rw [hcb] at h
      rcases cousinBest_fold_some (ancestorMap ps b 8) (ancestorMap ps a 8)
          none c hcb with ⟨hmem0, _, _⟩
      have hmem : c ∈ commonAncestors (ancestorMap ps a 8) (ancestorMap ps b 8) := by
        rcases hmem0 with h' | h'
        · cases h'
        · exact h'
      rcases commonAncestors_mem _ _ c hmem with ⟨⟨eA, heA, hA1⟩, ⟨eB, heB, hB1⟩⟩
      have hra : Reachable ps a c.1 :=
        hA1 ▸ (ancestorMap_reach ps hg a ha 8 eA heA).1
      have hrb : Reachable ps b c.1 :=
        hB1 ▸ (ancestorMap_reach ps hg b hb 8 eB heB).1
      exact Relation.ReflTransGen.trans hra (reachable_symm ps hg b c.1 hrb)

theorem shareAParent_reach (ps : List Person) (hg : GoodGraph ps)
    (a b : String) (ha : existsId ps a = true) (hb : existsId ps b = true)
    (h : shareAParent ps a b = true) : Reachable ps a b := by
  unfold shareAParent at h
  rcases List.any_eq_true.mp h with ⟨x, hx, hxb⟩
  rw [decide_eq_true_eq] at hxb
  have hea := edge_parentsOfId ps hg a x ha hx
  have heb := edge_parentsOfId ps hg b x hb hxb
  exact Relation.ReflTransGen.trans
    (Relation.ReflTransGen.single hea)
    (reachable_symm ps hg b x (Relation.ReflTransGen.single heb))

theorem parentAny_share_reach (ps : List Person) (hg : GoodGraph ps)
    (a b : String) (B : Person) (hB : findPerson ps b = some B)
    (ha : existsId ps a = true)
    (h : B.parents.any (fun p => shareAParent ps a p) = true) :
    Reachable ps a b := by
  rcases List.any_eq_true.mp h with ⟨p, hp, hshare⟩
  rcases findPerson_mem ps b B hB with ⟨hBm, _⟩
  have hpex : existsId ps p = true := (hg.2.1 B hBm).1 p hp
  have h1 : Reachable ps a p := shareAParent_reach ps hg a p ha hpex hshare
  have h2 : edgeStep ps b p := edge_parent ps hg b p B hB hp
  exact Relation.ReflTransGen.trans h1
    (reachable_symm ps hg b p (Relation.ReflTransGen.single h2))

theorem bfs_fold_found (ps : List Person) (a b cur : String) :
    ∀ (nl : List String)
      (st : Sum (List String) (List String × List (String × String) × List String))
      (p : List String),
      nl.foldl
        (fun st n =>
          match st with
          | Sum.inl path => Sum.inl path
          | Sum.inr (q, pr, sn) =>
              if ¬ existsId ps n ∨ n ∈ sn then Sum.inr (q, pr, sn)
              else
                let pr2 := pr ++ [(n, cur)]
                let sn2 := sn ++ [n]
                if n = b then
                  Sum.inl ((rebuildPath pr2 a (pr2.length + 1) b [b]).reverse)
                else Sum.inr (q ++ [n], pr2, sn2))
        st = Sum.inl p →
      (∀ (q : List String) (pr : List (String × String)) (sn : List String),
        st = Sum.inr (q, pr, sn) → existsId ps b = true ∧ b ∈ nl) ∧
      (∀ p', st = Sum.inl p' → p' = p) := by
  intro nl
  induction nl with
  | nil =>
      intro st p h
      constructor
      · intro q pr sn hst
        rw [hst] at h
        cases h
      · intro p' hp'
        rw [hp'] at h
        injection h
  | cons n nl ih =>
      intro st p h
      rw [List.foldl_cons] at h
      have IH := ih _ p h
      constructor
      · intro q pr sn hst
        subst hst
        by_cases hskip : ¬ existsId ps n ∨ n ∈ sn
        · have hfact := IH.1 q pr sn ?_
          · exact ⟨hfact.1, List.mem_cons_of_mem _ hfact.2⟩
          · dsimp only
            rw [if_pos hskip]
        · push_neg at hskip
          rcases hskip with ⟨hex, hnsn⟩
          by_cases hnb : n = b
          · exact ⟨hnb ▸ hex, List.mem_cons.mpr (Or.inl hnb.symm)⟩
          · have hfact := IH.1 (q ++ [n]) (pr ++ [(n, cur)]) (sn ++ [n]) ?_
            · exact ⟨hfact.1, List.mem_cons_of_mem _ hfact.2⟩
            · dsimp only
              rw [if_neg (by push_neg; exact ⟨hex, hnsn⟩), if_neg hnb]
      · intro p' hp'
        subst hp'
        exact IH.2 p' rfl

theorem bfs_fold_state_facts (ps : List Person) (a b cur : String) :
    ∀ (nl : List String)
      (st : Sum (List String) (List String × List (String × String) × List String))
      (q' : List String) (pr' : List (String × String)) (sn' : List String),
      nl.foldl
        (fun st n =>
          match st with
          | Sum.inl path => Sum.inl path
          | Sum.inr (q, pr, sn) =>
              if ¬ existsId ps n ∨ n ∈ sn then Sum.inr (q, pr, sn)
              else
                let pr2 := pr ++ [(n, cur)]
                let sn2 := sn ++ [n]
                if n = b then
                  Sum.inl ((rebuildPath pr2 a (pr2.length + 1) b [b]).reverse)
                else Sum.inr (q ++ [n], pr2, sn2))
        st = Sum.inr (q', pr', sn') →
      (∀ (q : List String) (pr : List (String × String)) (sn : List String),
        st = Sum.inr (q, pr, sn) →
        (∀ x ∈ sn, x ∈ sn') ∧
        (∀ i ∈ q, i ∈ q') ∧
        (∀ i ∈ q', i ∈ q ∨ (i ∈ nl ∧ existsId ps i = true ∧ i ∈ sn' ∧ i ∉ sn)) ∧
        (∀ i ∈ sn', i ∈ sn ∨ i ∈ q') ∧
        (∀ n ∈ nl, existsId ps n = true → n ∈ sn') ∧
        (b ∉ sn → b ∉ sn')) ∧
      (∀ p, st = Sum.inl p → False) := by
  intro nl
  induction nl with
  | nil =>
      intro st q' pr' sn' h
      constructor
      · intro q pr sn hst
        rw [hst] at h
        injection h with h
        injection h with h1 h
        injection h with h2 h3
        subst h1
        subst h3
        refine ⟨fun x hx => hx, fun i hi => hi, fun i hi => Or.inl hi,
          fun i hi => Or.inl hi, ?_, fun hb hb' => hb hb'⟩
        intro n hn
        cases hn
      · intro p hp
        rw [hp] at h
        cases h
  | cons n nl ih =>
      intro st q' pr' sn' h
      rw [List.foldl_cons] at h
      have IH := ih _ q' pr' sn' h
      constructor
      · intro q pr sn hst
        subst hst
        by_cases hskip : ¬ existsId ps n ∨ n ∈ sn
        · have hfact := IH.1 q pr sn ?_
          · rcases hfact with ⟨F1, F2, F3, F4, F5, F6⟩
            refine ⟨F1, F2, ?_, F4, ?_, F6⟩
            · intro i hi
              rcases F3 i hi with hh | ⟨h1, h2, h3, h4⟩
              · exact Or.inl hh
              · exact Or.inr ⟨List.mem_cons_of_mem _ h1, h2, h3, h4⟩
            · intro m hm hmex
              rcases List.mem_cons.mp hm with rfl | hm'
              · rcases hskip with hs | hs
                · exact absurd hmex hs
                · exact F1 m hs
              · exact F5 m hm' hmex
          · dsimp only
            rw [if_pos hskip]
        · push_neg at hskip
          rcases hskip with ⟨hex, hnsn⟩
          by_cases hnb : n = b
          · exfalso
            refine IH.2 ((rebuildPath (pr ++ [(n, cur)]) a
              ((pr ++ [(n, cur)]).length + 1) b [b]).reverse) ?_
            dsimp only
            rw [if_neg (by push_neg; exact ⟨hex, hnsn⟩), if_pos hnb]
          · have hfact := IH.1 (q ++ [n]) (pr ++ [(n, cur)]) (sn ++ [n]) ?_
            · rcases hfact with ⟨F1, F2, F3, F4, F5, F6⟩
              have hnsn' : n ∈ sn' := F1 n (List.mem_append_right _ (List.mem_singleton.mpr rfl))
              have hnq' : n ∈ q' := F2 n (List.mem_append_right _ (List.mem_singleton.mpr rfl))
              refine ⟨?_, ?_, ?_, ?_, ?_, ?_⟩
              · intro x hx
                exact F1 x (List.mem_append_left _ hx)
              · intro i hi
                exact F2 i (List.mem_append_left _ hi)
              · intro i hi
                rcases F3 i hi with hh | ⟨h1, h2, h3, h4⟩
                · rcases List.mem_append.mp hh with h' | h'
                  · exact Or.inl h'
                  · rw [List.mem_singleton] at h'
                    subst h'
                    exact Or.inr ⟨List.mem_cons_self _ _, hex, hnsn', hnsn⟩
                · refine Or.inr ⟨List.mem_cons_of_mem _ h1, h2, h3, ?_⟩
                  intro hc
                  exact h4 (List.mem_append_left _ hc)
              · intro i hi
                rcases F4 i hi with hh | hh
                · rcases List.mem_append.mp hh with h' | h'
                  · exact Or.inl h'
                  · rw [List.mem_singleton] at h'
                    subst h'
                    exact Or.inr hnq'
                · exact Or.inr hh
              · intro m hm hmex
                rcases List.mem_cons.mp hm with rfl | hm'
                · exact hnsn'
                · exact F5 m hm' hmex
              · intro hbn
                refine F6 ?_
                intro hc
                rcases List.mem_append.mp hc with h' | h'
                · exact hbn h'
                · rw [List.mem_singleton] at h'
                  exact hnb h'.symm
            · dsimp only
              rw [if_neg (by push_neg; exact ⟨hex, hnsn⟩), if_neg hnb]
      · intro p hp
        subst hp
        exact IH.2 p rfl

theorem findPathAux_sound (ps : List Person) (hg : GoodGraph ps) (a b : String) :
    ∀ (fuel : Nat) (queue : List String) (prev : List (String × String))
      (seen : List String),
      (∀ i ∈ queue, Reachable ps a i ∧ existsId ps i = true) →
      ∀ path, findPathAux ps a b fuel queue prev seen = some (some path) →
      Reachable ps a b := by
  intro fuel
  induction fuel with
  | zero =>
      intro queue prev seen hq path h
      cases queue with
      | nil =>
          have h' : (some (none : Option (List String)))
              = some (some path) := h
          injection h' with h'
          cases h'
      | cons x q =>
          have h' : (none : Option (Option (List String)))
              = some (some path) := h
          cases h'
  | succ fuel ih =>
      intro queue prev seen hq path h
      cases queue with
      | nil =>
          have h' : (some (none : Option (List String)))
              = some (some path) := h
          injection h' with h'
          cases h'
      | cons cur rest =>
          have h' : (match
              (match findPerson ps cur with
                | some p => p.parents ++ p.spouses ++ p.children
                | none => []).foldl
              (fun st n =>
                match st with
                | Sum.inl path => Sum.inl path
                | Sum.inr (q, pr, sn) =>
                    if ¬ existsId ps n ∨ n ∈ sn then Sum.inr (q, pr, sn)
                    else
                      let pr2 := pr ++ [(n, cur)]
                      let sn2 := sn ++ [n]
                      if n = b then
                        Sum.inl ((rebuildPath pr2 a (pr2.length + 1) b [b]).reverse)
                      else Sum.inr (q ++ [n], pr2, sn2))
              (Sum.inr (rest, prev, seen)) with
            | Sum.inl path => some (some path)
            | Sum.inr (q, pr, sn) => findPathAux ps a b fuel q pr sn)
            = some (some path) := h
          revert h'
          cases hfold : (match findPerson ps cur with
                | some p => p.parents ++ p.spouses ++ p.children
                | none => []).foldl
              (fun st n =>
                match st with
                | Sum.inl path => Sum.inl path
                | Sum.inr (q, pr, sn) =>
                    if ¬ existsId ps n ∨ n ∈ sn then Sum.inr (q, pr, sn)
                    else
                      let pr2 := pr ++ [(n, cur)]
                      let sn2 := sn ++ [n]
                      if n = b then
                        Sum.inl ((rebuildPath pr2 a (pr2.length + 1) b [b]).reverse)
                      else Sum.inr (q ++ [n], pr2, sn2))
              (Sum.inr (rest, prev, seen)) with
          | inl p =>
              intro h'
              have hfound := (bfs_fold_found ps a b cur _ _ p hfold).1
                rest prev seen rfl
              rcases hfound with ⟨hexb, hbnl⟩
              rcases hq cur (List.mem_cons_self _ _) with ⟨hrc, hexc⟩
              cases hfp : findPerson ps cur with
              | none =>
                  rw [hfp] at hbnl
                  exact absurd hbnl (List.not_mem_nil b)
              | some P =>
                  rw [hfp] at hbnl
                  have hbnl' : b ∈ P.parents ++ P.spouses ++ P.children := hbnl
                  have hedge : edgeStep ps cur b := by
                    refine ⟨hexc, hexb, ?_⟩
                    unfold neighborsOfId
                    rw [hfp]
                    exact hbnl'
                  exact Relation.ReflTransGen.tail hrc hedge
          | inr st =>
              rcases st with ⟨q', pr', sn'⟩
              intro h'
              have h'' : findPathAux ps a b fuel q' pr' sn'
                  = some (some path) := h'
              refine ih q' pr' sn' ?_ path h''
              intro i hi
              have hfacts := (bfs_fold_state_facts ps a b cur _ _
                q' pr' sn' hfold).1 rest prev seen rfl
              rcases hfacts.2.2.1 i hi with hh | ⟨h1, h2, h3, h4⟩
              · exact hq i (List.mem_cons_of_mem _ hh)
              · rcases hq cur (List.mem_cons_self _ _) with ⟨hrc, hexc⟩
                have hedge : edgeStep ps cur i := by
                  refine ⟨hexc, h2, ?_⟩
                  show i ∈ neighborsOfId ps cur
                  exact h1
                exact ⟨Relation.ReflTransGen.tail hrc hedge, h2⟩

theorem findPathAux_complete (ps : List Person) (a b : String) :
    ∀ (fuel : Nat) (queue : List String) (prev : List (String × String))
      (seen : List String),
      (∀ u ∈ seen, u ∈ queue ∨ ∀ v, edgeStep ps u v → v ∈ seen) →
      (∀ u ∈ queue, u ∈ seen) →
      b ∉ seen →
      findPathAux ps a b fuel queue prev seen = some none →
      ∃ S : List String, (∀ u ∈ seen, u ∈ S) ∧
        (∀ u ∈ S, ∀ v, edgeStep ps u v → v ∈ S) ∧ b ∉ S := by
  intro fuel
  induction fuel with
  | zero =>
      intro queue prev seen hI1 hI2 hI3 h
      cases queue with
      | nil =>
          refine ⟨seen, fun u hu => hu, ?_, hI3⟩
          intro u hu v hv
          rcases hI1 u hu with hquu | hcl
          · exact absurd hquu (List.not_mem_nil u)
          · exact hcl v hv
      | cons x q =>
          have h' : (none : Option (Option (List String))) = some none := h
          cases h'
  | succ fuel ih =>
      intro queue prev seen hI1 hI2 hI3 h
      cases queue with
      | nil =>
          refine ⟨seen, fun u hu => hu, ?_, hI3⟩
          intro u hu v hv
          rcases hI1 u hu with hquu | hcl
          · exact absurd hquu (List.not_mem_nil u)
          · exact hcl v hv
      | cons cur rest =>
          have h' : (match
              (match findPerson ps cur with
                | some p => p.parents ++ p.spouses ++ p.children
                | none => []).foldl
              (fun st n =>
                match st with
                | Sum.inl path => Sum.inl path
                | Sum.inr (q, pr, sn) =>
                    if ¬ existsId ps n ∨ n ∈ sn then Sum.inr (q, pr, sn)
                    else
                      let pr2 := pr ++ [(n, cur)]
                      let sn2 := sn ++ [n]
                      if n = b then
                        Sum.inl ((rebuildPath pr2 a (pr2.length + 1) b [b]).reverse)
                      else Sum.inr (q ++ [n], pr2, sn2))
              (Sum.inr (rest, prev, seen)) with
            | Sum.inl path => some (some path)
            | Sum.inr (q, pr, sn) => findPathAux ps a b fuel q pr sn)
            = some none := h
          revert h'
          cases hfold : (match findPerson ps cur with
                | some p => p.parents ++ p.spouses ++ p.children
                | none => []).foldl
              (fun st n =>
                match st with
                | Sum.inl path => Sum.inl path
                | Sum.inr (q, pr, sn) =>
                    if ¬ existsId ps n ∨ n ∈ sn then Sum.inr (q, pr, sn)
                    else
                      let pr2 := pr ++ [(n, cur)]
                      let sn2 := sn ++ [n]
                      if n = b then
                        Sum.inl ((rebuildPath pr2 a (pr2.length + 1) b [b]).reverse)
                      else Sum.inr (q ++ [n], pr2, sn2))
              (Sum.inr (rest, prev, seen)) with
          | inl p =>
              intro h'
              have h'' : (some (some p) : Option (Option (List String)))
                  = some none := h'
              injection h'' with h''
              cases h''
          | inr st =>
              rcases st with ⟨q', pr', sn'⟩
              intro h'
              have h'' : findPathAux ps a b fuel q' pr' sn' = some none := h'
              have hfacts := (bfs_fold_state_facts ps a b cur _ _
                q' pr' sn' hfold).1 rest prev seen rfl
              rcases hfacts with ⟨F1, F2, F3, F4, F5, F6⟩
              have hclosecur : ∀ v, edgeStep ps cur v → v ∈ sn' := by
                intro v hv
                rcases hv with ⟨hexc, hexv, hvn⟩
                refine F5 v ?_ hexv
                show v ∈ (match findPerson ps cur with
                  | some p => p.parents ++ p.spouses ++ p.children
                  | none => [])
                exact hvn
              have hinv1 : ∀ u ∈ sn',
                  u ∈ q' ∨ ∀ v, edgeStep ps u v → v ∈ sn' := by
                intro u hu
                rcases F4 u hu with husn | huq
                · rcases hI1 u husn with huqq | hcl
                  · rcases List.mem_cons.mp huqq with rfl | hur
                    · exact Or.inr hclosecur
                    · exact Or.inl (F2 u hur)
                  · exact Or.inr (fun v hv => F1 v (hcl v hv))
                · exact Or.inl huq
              have hinv2 : ∀ u ∈ q', u ∈ sn' := by
                intro u hu
                rcases F3 u hu with hur | ⟨h1, h2, h3, h4⟩
                · exact F1 u (hI2 u (List.mem_cons_of_mem _ hur))
                · exact h3
              have hinv3 : b ∉ sn' := F6 hI3
              obtain ⟨S, hS1, hS2, hS3⟩ := ih q' pr' sn' hinv1 hinv2 hinv3 h''
              exact ⟨S, fun u hu => hS1 u (F1 u hu), hS2, hS3⟩

theorem reach_closed (ps : List Person) (S : List String)
    (hcl : ∀ u ∈ S, ∀ v, edgeStep ps u v → v ∈ S) :
    ∀ u v, u ∈ S → Reachable ps u v → v ∈ S := by
  intro u v hu h
  induction h with
  | refl => exact hu
  | tail h1 step ih => exact hcl _ ih _ step

theorem findPath_none_of_not_reach (ps : List Person) (hg : GoodGraph ps)
    (a b : String) (ha : existsId ps a = true)
    (hnr : ¬ Reachable ps a b) : findPath ps a b = none := by
  have hne : a ≠ b := by
    rintro rfl
    exact hnr Relation.ReflTransGen.refl
  unfold findPath
  rw [if_neg hne]
  cases haux : findPathAux ps a b (ps.length + 1) [a] [] [a] with
  | none => rfl
  | some r =>
      cases r with
      | none => rfl
      | some path =>
          exfalso
          refine hnr (findPathAux_sound ps hg a b _ [a] [] [a] ?_ path haux)
          intro i hi
          rw [List.mem_singleton] at hi
          subst hi
          exact ⟨Relation.ReflTransGen.refl, ha⟩

theorem findPath_some_of_reach (ps : List Person) (a b : String)
    (hr : Reachable ps a b) (hne : a ≠ b) :
    ∃ p, findPath ps a b = some p := by
  unfold findPath
  rw [if_neg hne]
  cases haux : findPathAux ps a b (ps.length + 1) [a] [] [a] with
  | none =>
      exfalso
      have hmeas : ([a] : List String).length
          + ((idsOf ps).filter (fun x => decide (x ∉ ([a] : List String)))).length
          ≤ ps.length + 1 := by
        have h1 := List.length_filter_le
          (fun x => decide (x ∉ ([a] : List String))) (idsOf ps)
        have h2 : (idsOf ps).length = ps.length := by
          unfold idsOf
          rw [List.length_map]
        rw [List.length_singleton]
        omega
      exact absurd haux (findPathAux_total ps a b (ps.length + 1) [a] [] [a] hmeas)
  | some r =>
      cases r with
      | none =>
          exfalso
          have hI1 : ∀ u ∈ ([a] : List String),
              u ∈ ([a] : List String) ∨ ∀ v, edgeStep ps u v → v ∈ ([a] : List String) := by
            intro u hu
            exact Or.inl hu
          have hI2 : ∀ u ∈ ([a] : List String), u ∈ ([a] : List String) :=
            fun u hu => hu
          have hI3 : b ∉ ([a] : List String) := by
            intro hc
            rw [List.mem_singleton] at hc
            exact hne hc.symm
          obtain ⟨S, hS1, hS2, hS3⟩ := findPathAux_complete ps a b
            (ps.length + 1) [a] [] [a] hI1 hI2 hI3 haux
          exact hS3 (reach_closed ps S hS2 a b
            (hS1 a (List.mem_singleton.mpr rfl)) hr)
      | some path => exact ⟨path, rfl⟩

theorem not_reachable_of_no_edge (ps : List Person) (a b : String)
    (hne : a ≠ b) (hnb : neighborsOfId ps a = []) : ¬ Reachable ps a b := by
  intro h
  rcases Relation.ReflTransGen.cases_head h with heq | ⟨c, hc, _⟩
  · exact hne heq
  · rcases hc with ⟨_, _, hmem⟩
    rw [hnb] at hmem
    exact absurd hmem (List.not_mem_nil c)

/-- Claim C9: on a normalized graph, when two existing people `a` and `b`
lie in disconnected components of the undirected parents/children/spouses
neighbor relation, the resolver reports `unrelated`; and when a path does
exist but no more specific rule of the cascade matches, the fallback
breadth-first search finds it and the resolver reports the generic
`related` result. -/
theorem c9_fallback_search (ps : List Person) (a b : String)
    (hg : GoodGraph ps) (ha : existsId ps a = true)
    (hb : existsId ps b = true) :
    (¬ Reachable ps a b →
      relationFromAToB ps a b
        = { type := RelType.unrelated, label := "unrelated" }) ∧
    (Reachable ps a b → a ≠ b →
      b ∉ spousesOfId ps a → a ∉ parentsOfId ps b → b ∉ parentsOfId ps a →
      generationsUpTo ps a b ≤ 1 → generationsUpTo ps b a ≤ 1 →
      shareAParent ps a b = false →
      (parentsOfId ps b).any (fun p => shareAParent ps a p) = false →
      (parentsOfId ps a).any (fun p => shareAParent ps b p) = false →
      cousinLabel ps a b = none →
      relationFromAToB ps a b
        = { type := RelType.related, label := "related" }) := by
  have ha' := (existsId_iff ps a).mp ha
  have hb' := (existsId_iff ps b).mp hb
  rcases findPerson_of_mem_ids ps a ha' with ⟨A, hAm, hfA, hAid⟩
  rcases findPerson_of_mem_ids ps b hb' with ⟨B, hBm, hfB, hBid⟩
  have hPA : parentsOfId ps a = A.parents := by
    unfold parentsOfId
    rw [hfA]
    rfl
  have hPB : parentsOfId ps b = B.parents := by
    unfold parentsOfId
    rw [hfB]
    rfl
  have hSA : spousesOfId ps a = A.spouses := by
    unfold spousesOfId
    rw [hfA]
    rfl
  constructor
  · intro hnr
    have hne : a ≠ b := by
      rintro rfl
      exact hnr Relation.ReflTransGen.refl
    have hsp1 : b ∉ A.spouses := fun hc =>
      hnr (Relation.ReflTransGen.single (edge_spouse ps hg a b A hfA hc))
    have hpar1 : a ∉ B.parents := fun hc =>
      hnr (reachable_symm ps hg b a
        (Relation.ReflTransGen.single (edge_parent ps hg b a B hfB hc)))
    have hpar2 : b ∉ A.parents := fun hc =>
      hnr (Relation.ReflTransGen.single (edge_parent ps hg a b A hfA hc))
    have hfr1 : ∀ i ∈ ([a] : List String),
        Reachable ps a i ∧ existsId ps i = true := by
      intro i hi
      rw [List.mem_singleton] at hi
      subst hi
      exact ⟨Relation.ReflTransGen.refl, ha⟩
    have hfr2 : ∀ i ∈ ([b] : List String),
        Reachable ps b i ∧ existsId ps i = true := by
      intro i hi
      rw [List.mem_singleton] at hi
      subst hi
      exact ⟨Relation.ReflTransGen.refl, hb⟩
    have hup1 : ¬ generationsUpTo ps a b > 1 := by
      intro hgt
      have h0 : guAux ps b 12 [a] [a] 0 ≠ 0 := by
        unfold generationsUpTo at hgt
        omega
      exact hnr (guAux_reach ps hg a b 12 [a] [a] 0 hfr1 h0)
    have hup2 : ¬ generationsUpTo ps b a > 1 := by
      intro hgt
      have h0 : guAux ps a 12 [b] [b] 0 ≠ 0 := by
        unfold generationsUpTo at hgt
        omega
      exact hnr (reachable_symm ps hg b a
        (guAux_reach ps hg b a 12 [b] [b] 0 hfr2 h0))
    have hsib : shareAParent ps a b = false := by
      by_cases hsh : shareAParent ps a b = true
      · exact absurd (shareAParent_reach ps hg a b ha hb hsh) hnr
      · rwa [Bool.not_eq_true] at hsh
    have hav1 : B.parents.any (fun p => shareAParent ps a p) = false := by
      by_cases hc : B.parents.any (fun p => shareAParent ps a p) = true
      · exact absurd (parentAny_share_reach ps hg a b B hfB ha hc) hnr
      · rwa [Bool.not_eq_true] at hc
    have hav2 : A.parents.any (fun p => shareAParent ps b p) = false := by
      by_cases hc : A.parents.any (fun p => shareAParent ps b p) = true
      · exact absurd (reachable_symm ps hg b a
          (parentAny_share_reach ps hg b a A hfA hb hc)) hnr
      · rwa [Bool.not_eq_true] at hc
    have hcous : cousinLabel ps a b = none := by
      cases hcl : cousinLabel ps a b with
      | none => rfl
      | some lbl =>
          exact absurd (cousinLabel_some_reach ps hg a b ha hb lbl hcl) hnr
    have hfp : findPath ps a b = none :=
      findPath_none_of_not_reach ps hg a b ha hnr
    simp only [relationFromAToB, hfA, hfB, if_neg hne, hsp1, hpar1, hpar2,
      hup1, hup2, hsib, hav1, hav2, Bool.false_eq_true, if_false, if_true,
      ite_false, ite_true, hcous, hfp]
  · intro hr hne hsp1' hpar1' hpar2' hup1 hup2 hsib hav1' hav2' hcous
    have hsp1 : b ∉ A.spouses := hSA ▸ hsp1'
    have hpar1 : a ∉ B.parents := hPB ▸ hpar1'
    have hpar2 : b ∉ A.parents := hPA ▸ hpar2'
    have hav1 : B.parents.any (fun p => shareAParent ps a p) = false :=
      hPB ▸ hav1'
    have hav2 : A.parents.any (fun p => shareAParent ps b p) = false :=
      hPA ▸ hav2'
    have hup1' : ¬ generationsUpTo ps a b > 1 := by omega
    have hup2' : ¬ generationsUpTo ps b a > 1 := by omega
    rcases findPath_some_of_reach ps a b hr hne with ⟨p, hfp⟩
    simp only [relationFromAToB, hfA, hfB, if_neg hne, hsp1, hpar1, hpar2,
      hup1', hup2', hsib, hav1, hav2, Bool.false_eq_true, if_false, if_true,
      ite_false, ite_true, hcous, hfp]

/-- Claim C9 witness: the two-singleton disconnected graph resolves to
`unrelated`, and the spouse-then-child path graph (where no specific rule
matches) resolves to `related`. -/
theorem c9_witness :
    relationFromAToB disconnectedGraph "a" "b"
      = { type := RelType.unrelated, label := "unrelated" } ∧
    relationFromAToB pathOnlyGraph "a" "b"
      = { type := RelType.related, label := "related" } := by
  constructor
  · exact (c9_fallback_search disconnectedGraph "a" "b"
      (by unfold GoodGraph; decide) (by decide) (by decide)).1
      (not_reachable_of_no_edge disconnectedGraph "a" "b"
        (by decide) (by decide))
  · exact (c9_fallback_search pathOnlyGraph "a" "b"
      (by unfold GoodGraph; decide) (by decide) (by decide)).2
      (Relation.ReflTransGen.head
        (show edgeStep pathOnlyGraph "a" "c" by unfold edgeStep; decide)
        (Relation.ReflTransGen.head
          (show edgeStep pathOnlyGraph "c" "b" by unfold edgeStep; decide)
          Relation.ReflTransGen.refl))
      (by decide) (by decide) (by decide) (by decide) (by decide) (by decide)
      (by decide) (by decide) (by decide) (by decide)
